import Mathlib

/-!
Verification of the DNN-Accelerator host-side driver stack.

The definitions below are a shallow embedding of the C sources under
`04_software/`:
* `hal_mem.c`  — the best-fit free-list allocator over the device memory window;
* `hal_io.c`   — status bit tests and the bounded `hal_wait_for_ready` poll;
* `hal_config.c` — the instruction-register programming protocol;
* `accel.c` / `accel_config.c` — the driver facade over the HAL;
* `runtime.hpp` — the C++ runtime wrapper's parameter construction.

Machine addresses and sizes are modelled as `Nat` (the C code never relies on
`size_t` overflow on the values that occur: the window is 256 MiB).  Host
`malloc` for allocator bookkeeping nodes is assumed to succeed, and the C
null-context / null-pointer guards that merely reject impossible inputs
(a `NULL` context, freeing the never-returned `NULL`) are outside the model;
every claim below quantifies over live contexts and returned addresses.
-/

namespace DNNAccel

/-! ## Allocator data model (hal_mem.c) -/

/-- `HAL_MEM_ALIGN` from `hal_mem.h`: the 64-byte alignment quantum. -/
def HAL_MEM_ALIGN : Nat := 64

/-- `HAL_ACCEL_MEM_SIZE` from `hal_base.h`: 256 MiB device memory window. -/
def HAL_ACCEL_MEM_SIZE : Nat := 256 * 1024 * 1024

/-- `sizeof(struct mem_block)` on an LP64 host: `void*` (8) + `size_t` (8) +
`bool` padded (8) + `struct mem_block*` (8).  Used only in the split
threshold of `hal_mem_alloc`. -/
def memBlockHeaderSize : Nat := 32

/-- `struct mem_block` from `hal_mem.c` (the `next` pointer is represented by
list adjacency). -/
structure MemBlock where
  addr : Nat
  size : Nat
  used : Bool
deriving Repr, DecidableEq

/-- `struct hal_mem_context` from `hal_mem.c`. -/
structure HalMemContext where
  base_addr : Nat
  total_size : Nat
  blocks : List MemBlock
deriving Repr, DecidableEq

/-- `align_size` from `hal_mem.c`: round up to the 64-byte boundary.  The C
form `(size + HAL_MEM_ALIGN - 1) & ~(HAL_MEM_ALIGN - 1)` equals this
quotient-remainder form because `HAL_MEM_ALIGN` is a power of two. -/
def align_size (size : Nat) : Nat :=
  (size + HAL_MEM_ALIGN - 1) / HAL_MEM_ALIGN * HAL_MEM_ALIGN

/-- `hal_mem_init`: a single unused block spanning the whole window. -/
def hal_mem_init (base size : Nat) : HalMemContext :=
  { base_addr := base, total_size := size,
    blocks := [{ addr := base, size := size, used := false }] }

/-- The condition under which the best-fit scan of `hal_mem_alloc` adopts
block `b` as the new `best_fit`: unused, large enough, and strictly smaller
than the best so far (`none` plays the role of the initial
`best_size = (size_t)-1` sentinel). -/
def bfTake (sz : Nat) (b : MemBlock) (best : Option (Nat × Nat)) : Bool :=
  !b.used && decide (sz ≤ b.size) &&
    (match best with
     | none => true
     | some (_, bsz) => decide (b.size < bsz))

/-- The best-fit scan loop of `hal_mem_alloc`: walk the list keeping the
index and size of the smallest unused block that satisfies the request. -/
def bestFitAux (sz : Nat) : List MemBlock → Nat → Option (Nat × Nat) → Option (Nat × Nat)
  | [], _, best => best
  | b :: rest, i, best =>
      bestFitAux sz rest (i + 1) (if bfTake sz b best then some (i, b.size) else best)

/-- The split-and-mark step of `hal_mem_alloc`, applied at the chosen index:
if the block is larger than the request by more than one bookkeeping header
plus the alignment quantum, split off a free remainder immediately after;
in either case mark the chosen block used. -/
def allocAt (sz : Nat) : List MemBlock → Nat → List MemBlock
  | [], _ => []
  | b :: rest, 0 =>
      if sz + memBlockHeaderSize + HAL_MEM_ALIGN < b.size then
        { addr := b.addr, size := sz, used := true } ::
          { addr := b.addr + sz, size := b.size - sz, used := false } :: rest
      else
        { b with used := true } :: rest
  | b :: rest, j + 1 => b :: allocAt sz rest j

/-- `hal_mem_alloc`: returns the allocated address (`none` = `NULL`) and the
updated context. -/
def hal_mem_alloc (ctx : HalMemContext) (size : Nat) : Option Nat × HalMemContext :=
  if size = 0 then (none, ctx)
  else
    let sz := align_size size
    match bestFitAux sz ctx.blocks 0 none with
    | none => (none, ctx)
    | some (j, _) =>
        match ctx.blocks[j]? with
        | none => (none, ctx)
        | some b => (some b.addr, { ctx with blocks := allocAt sz ctx.blocks j })

/-- The merge-with-next loop of `hal_mem_free`: absorb every immediately
following unused block into `b`, dropping their nodes. -/
def mergeNextAll : MemBlock → List MemBlock → MemBlock × List MemBlock
  | b, [] => (b, [])
  | b, n :: rest =>
      if n.used then (b, n :: rest)
      else mergeNextAll { b with size := b.size + n.size } rest

/-- The body of `hal_mem_free`: locate the first block whose address matches,
require it to be in use, mark it unused, merge with following free blocks,
then merge into the immediately preceding block if that one is free.  A
pointer matching no block (or an already-free block) leaves the list
untouched. -/
def freeAux (ptr : Nat) : List MemBlock → List MemBlock
  | [] => []
  | [b] =>
      if b.addr = ptr then
        if b.used then [{ b with used := false }] else [b]
      else [b]
  | b :: c :: rest =>
      if b.addr = ptr then
        if b.used then
          let m := mergeNextAll { b with used := false } (c :: rest)
          m.1 :: m.2
        else b :: c :: rest
      else if c.addr = ptr then
        if c.used then
          let m := mergeNextAll { c with used := false } rest
          if b.used then b :: m.1 :: m.2
          else { b with size := b.size + m.1.size } :: m.2
        else b :: c :: rest
      else b :: freeAux ptr (c :: rest)

/-- `hal_mem_free`. -/
def hal_mem_free (ctx : HalMemContext) (ptr : Nat) : HalMemContext :=
  { ctx with blocks := freeAux ptr ctx.blocks }

/-- Sum of the sizes of all blocks in a list. -/
def sumSizes : List MemBlock → Nat
  | [] => 0
  | b :: rest => b.size + sumSizes rest

/-- Sum of the sizes of the unused blocks (the accumulation loop of
`hal_mem_available`). -/
def sumFree : List MemBlock → Nat
  | [] => 0
  | b :: rest => (if b.used then 0 else b.size) + sumFree rest

/-- `hal_mem_available`: sum of the sizes of the unused blocks. -/
def hal_mem_available (ctx : HalMemContext) : Nat :=
  sumFree ctx.blocks

/-- Addresses of the blocks currently marked in use — exactly the outstanding
allocations of the session. -/
def usedAddrs (bs : List MemBlock) : List Nat :=
  (bs.filter (·.used)).map (·.addr)

/-- One allocator call. -/
inductive MemOp where
  | alloc (size : Nat)
  | free (ptr : Nat)
deriving Repr, DecidableEq

/-- Apply one allocator call to the context (the address returned by `alloc`
is dropped; sequences that free returned addresses are expressed by freeing
the corresponding concrete addresses). -/
def applyOp (ctx : HalMemContext) : MemOp → HalMemContext
  | .alloc s => (hal_mem_alloc ctx s).2
  | .free p => hal_mem_free ctx p

/-- Run a sequence of allocator calls. -/
def runOps (ctx : HalMemContext) : List MemOp → HalMemContext
  | [] => ctx
  | op :: ops => runOps (applyOp ctx op) ops

/-- No two adjacent blocks are both free. -/
def noAdjFree : List MemBlock → Bool
  | b :: c :: rest => (b.used || c.used) && noAdjFree (c :: rest)
  | _ => true

/-- The blocks tile the window contiguously starting at `a`: each block
starts where the previous one ended. -/
def ChainFrom (a : Nat) : List MemBlock → Prop
  | [] => True
  | b :: rest => b.addr = a ∧ ChainFrom (a + b.size) rest

/-- Structural well-formedness of an allocator state over a window
`[base, base + S)`. -/
structure MemInv (base S : Nat) (bs : List MemBlock) : Prop where
  chain : ChainFrom base bs
  total : sumSizes bs = S
  pos : ∀ b ∈ bs, 0 < b.size

/-! ## Basic facts about `align_size` -/

theorem align_size_ge (size : Nat) : size ≤ align_size size := by
  have h := Nat.mod_add_div (size + 64 - 1) 64
  have h2 := Nat.mod_lt (size + 64 - 1) (show 0 < 64 by norm_num)
  simp only [align_size, HAL_MEM_ALIGN]
  omega

theorem align_size_dvd (size : Nat) : 64 ∣ align_size size :=
  Nat.dvd_mul_left 64 _

theorem align_size_min (size m : Nat) (hm : size ≤ m) (hdvd : 64 ∣ m) :
    align_size size ≤ m := by
  obtain ⟨k, rfl⟩ := hdvd
  simp only [align_size, HAL_MEM_ALIGN]
  have hdiv : (size + 64 - 1) / 64 ≤ k := by
    rw [Nat.div_le_iff_le_mul_add_pred (by norm_num)]
    omega
  calc (size + 64 - 1) / 64 * 64 ≤ k * 64 := Nat.mul_le_mul_right 64 hdiv
    _ = 64 * k := Nat.mul_comm k 64

theorem align_size_pos (size : Nat) (h : 0 < size) : 0 < align_size size :=
  Nat.lt_of_lt_of_le h (align_size_ge size)

/-! ## Sums of block sizes -/

theorem sumFree_le_sumSizes (bs : List MemBlock) : sumFree bs ≤ sumSizes bs := by
  induction bs with
  | nil => simp [sumFree, sumSizes]
  | cons b rest ih =>
    simp only [sumFree, sumSizes]
    cases b.used <;> simp <;> omega

theorem sumFree_eq_sumSizes (bs : List MemBlock) (h : ∀ b ∈ bs, b.used = false) :
    sumFree bs = sumSizes bs := by
  induction bs with
  | nil => rfl
  | cons b rest ih =>
    have hb : b.used = false := h b (by simp)
    simp only [sumFree, sumSizes, hb, if_neg Bool.false_ne_true]
    rw [ih (fun c hc => h c (by simp [hc]))]

theorem usedAddrs_nil_all_free (bs : List MemBlock) (h : usedAddrs bs = []) :
    ∀ b ∈ bs, b.used = false := by
  induction bs with
  | nil => simp
  | cons b rest ih =>
    intro c hc
    by_cases hb : b.used
    · exfalso
      simp [usedAddrs, List.filter_cons, hb] at h
    · rcases List.mem_cons.mp hc with rfl | hmem
      · simpa using hb
      · refine ih ?_ c hmem
        simpa [usedAddrs, List.filter_cons, hb] using h

/-! ## Facts about the address chain -/

theorem chain_le (a : Nat) (bs : List MemBlock) (hc : ChainFrom a bs) :
    ∀ b ∈ bs, a ≤ b.addr := by
  induction bs generalizing a with
  | nil => simp
  | cons b rest ih =>
    intro c hc'
    obtain ⟨haddr, hrest⟩ := hc
    rcases List.mem_cons.mp hc' with rfl | hmem
    · omega
    · have := ih (a + b.size) hrest c hmem
      omega

theorem chain_bounds (a : Nat) (bs : List MemBlock) (hc : ChainFrom a bs) :
    ∀ b ∈ bs, b.addr + b.size ≤ a + sumSizes bs := by
  induction bs generalizing a with
  | nil => simp
  | cons b rest ih =>
    intro c hc'
    obtain ⟨haddr, hrest⟩ := hc
    simp only [sumSizes]
    rcases List.mem_cons.mp hc' with rfl | hmem
    · omega
    · have := ih (a + b.size) hrest c hmem
      omega

theorem chain_nodup (a : Nat) (bs : List MemBlock) (hc : ChainFrom a bs)
    (hpos : ∀ b ∈ bs, 0 < b.size) : (bs.map (·.addr)).Nodup := by
  induction bs generalizing a with
  | nil => simp
  | cons b rest ih =>
    obtain ⟨haddr, hrest⟩ := hc
    simp only [List.map_cons, List.nodup_cons]
    constructor
    · intro hmem
      obtain ⟨c, hcmem, hceq⟩ := List.mem_map.mp hmem
      have h1 := chain_le _ _ hrest c hcmem
      have h2 := hpos b (by simp)
      omega
    · exact ih (a + b.size) hrest (fun c hcmem => hpos c (by simp [hcmem]))

/-! ## Facts about `noAdjFree` -/

theorem noAdjFree_tail (b : MemBlock) (bs : List MemBlock)
    (h : noAdjFree (b :: bs) = true) : noAdjFree bs = true := by
  cases bs with
  | nil => rfl
  | cons c rest =>
    simp only [noAdjFree, Bool.and_eq_true] at h
    exact h.2

theorem noAdjFree_cons (b c : MemBlock) (bs : List MemBlock)
    (h : noAdjFree (b :: c :: bs) = true) : b.used = true ∨ c.used = true := by
  simp only [noAdjFree, Bool.and_eq_true, Bool.or_eq_true] at h
  exact h.1

theorem noAdjFree_cons_of (b : MemBlock) (bs : List MemBlock)
    (htail : noAdjFree bs = true)
    (hhead : b.used = true ∨ ∀ c, bs.head? = some c → c.used = true) :
    noAdjFree (b :: bs) = true := by
  cases bs with
  | nil => rfl
  | cons c rest =>
    simp only [noAdjFree, Bool.and_eq_true, Bool.or_eq_true]
    refine ⟨?_, htail⟩
    rcases hhead with hb | hc
    · exact Or.inl hb
    · exact Or.inr (hc c rfl)

theorem noAdjFree_suffix (l₁ l₂ : List MemBlock) (hs : l₁ <:+ l₂)
    (h : noAdjFree l₂ = true) : noAdjFree l₁ = true := by
  obtain ⟨t, rfl⟩ := hs
  induction t with
  | nil => simpa using h
  | cons x t ih => exact ih (noAdjFree_tail x _ h)

/-! ## Facts about the best-fit scan -/

theorem bfTake_none (sz : Nat) (b : MemBlock) :
    bfTake sz b none = (!b.used && decide (sz ≤ b.size)) := by
  simp [bfTake]

theorem bfTake_some (sz : Nat) (b : MemBlock) (j s : Nat) :
    bfTake sz b (some (j, s)) =
      (!b.used && decide (sz ≤ b.size) && decide (b.size < s)) := rfl

theorem bfTake_eq_true (sz : Nat) (b : MemBlock) (best : Option (Nat × Nat))
    (h : bfTake sz b best = true) : b.used = false ∧ sz ≤ b.size := by
  cases best with
  | none =>
    rw [bfTake_none] at h
    simpa using h
  | some p =>
    obtain ⟨j, s⟩ := p
    rw [bfTake_some] at h
    simp only [Bool.and_eq_true, Bool.not_eq_true', decide_eq_true_eq] at h
    exact ⟨h.1.1, h.1.2⟩

/-- If no unused block satisfies the request, the scan keeps the empty
accumulator. -/
theorem bestFitAux_none (sz : Nat) (bs : List MemBlock) (i : Nat)
    (h : ∀ b ∈ bs, b.used = false → b.size < sz) :
    bestFitAux sz bs i none = none := by
  induction bs generalizing i with
  | nil => rfl
  | cons b rest ih =>
    simp only [bestFitAux]
    have htake : bfTake sz b none = false := by
      rw [bfTake_none]
      by_cases hu : b.used
      · simp [hu]
      · have := h b (by simp) (by simpa using hu)
        simp only [Bool.and_eq_false_iff]
        right
        simpa using Nat.not_le.mpr this
    rw [htake]
    simp only [Bool.false_eq_true, if_false]
    exact ih (i + 1) (fun c hc => h c (by simp [hc]))

/-- Whatever the scan returns is either the incoming accumulator or an
in-range unused block that satisfies the request. -/
theorem bestFitAux_sound (sz : Nat) (bs : List MemBlock) (i : Nat)
    (best : Option (Nat × Nat)) (j s : Nat)
    (h : bestFitAux sz bs i best = some (j, s)) :
    best = some (j, s) ∨
      ∃ k b, bs[k]? = some b ∧ j = i + k ∧ s = b.size ∧
        b.used = false ∧ sz ≤ b.size := by
  induction bs generalizing i best with
  | nil => exact Or.inl h
  | cons b rest ih =>
    simp only [bestFitAux] at h
    rcases ih _ _ h with h' | ⟨k, c, hk, hj, hs, hu, hsz⟩
    · cases htake : bfTake sz b best with
      | true =>
        rw [htake, if_pos rfl] at h'
        obtain ⟨hu, hsz⟩ := bfTake_eq_true sz b best htake
        obtain ⟨rfl, rfl⟩ : i = j ∧ b.size = s := by simpa using h'
        exact Or.inr ⟨0, b, by simp, by omega, rfl, hu, hsz⟩
      | false =>
        rw [htake] at h'
        simp only [Bool.false_eq_true, if_false] at h'
        exact Or.inl h'
    · exact Or.inr ⟨k + 1, c, by simpa using hk, by omega, hs, hu, hsz⟩

/-- Once the accumulator holds a block no remaining candidate beats, the scan
returns it. -/
theorem bestFitAux_stay (sz : Nat) (bs : List MemBlock) (i j s : Nat)
    (h : ∀ c ∈ bs, c.used = false → sz ≤ c.size → s ≤ c.size) :
    bestFitAux sz bs i (some (j, s)) = some (j, s) := by
  induction bs generalizing i with
  | nil => rfl
  | cons b rest ih =>
    simp only [bestFitAux]
    have htake : bfTake sz b (some (j, s)) = false := by
      rw [bfTake_some]
      by_cases hu : b.used = true
      · simp [hu]
      · by_cases hsz : sz ≤ b.size
        · have hge := h b (by simp) (by simpa using hu) hsz
          have hd : decide (b.size < s) = false := by
            simpa using Nat.not_lt.mpr hge
          simp [hd]
        · have hd : decide (sz ≤ b.size) = false := by simpa using hsz
          simp [hd]
    rw [htake]
    simp only [Bool.false_eq_true, if_false]
    exact ih (i + 1) (fun c hc => h c (by simp [hc]))

/-- Completeness of the scan: if `b` is an unused, large-enough block such
that every candidate before it is strictly larger and every candidate after
it is at least as large, the scan returns `b`'s index and size. -/
theorem bestFitAux_main (sz : Nat) (b : MemBlock) (post : List MemBlock)
    (hpost : ∀ c ∈ post, c.used = false → sz ≤ c.size → b.size ≤ c.size)
    (hbu : b.used = false) (hbsz : sz ≤ b.size) :
    ∀ (pre : List MemBlock) (i : Nat) (best : Option (Nat × Nat)),
      (best = none ∨ ∃ j0 s0, best = some (j0, s0) ∧ b.size < s0) →
      (∀ c ∈ pre, c.used = false → sz ≤ c.size → b.size < c.size) →
      bestFitAux sz (pre ++ b :: post) i best = some (i + pre.length, b.size) := by
  intro pre
  induction pre with
  | nil =>
    intro i best hbest hpre
    simp only [List.nil_append, bestFitAux, List.length_nil, Nat.add_zero]
    have htake : bfTake sz b best = true := by
      rcases hbest with rfl | ⟨j0, s0, rfl, hlt⟩
      · rw [bfTake_none]
        simp [hbu, hbsz]
      · rw [bfTake_some]
        simp [hbu, hbsz, hlt]
    rw [htake, if_pos rfl]
    exact bestFitAux_stay sz post (i + 1) i b.size hpost
  | cons p pre ih =>
    intro i best hbest hpre
    have hstep : (if bfTake sz p best then some (i, p.size) else best) = none ∨
        ∃ j0 s0, (if bfTake sz p best then some (i, p.size) else best) = some (j0, s0) ∧
          b.size < s0 := by
      cases htake : bfTake sz p best with
      | true =>
        obtain ⟨hpu, hpsz⟩ := bfTake_eq_true sz p best htake
        right
        exact ⟨i, p.size, by simp, hpre p (by simp) hpu hpsz⟩
      | false =>
        simpa using hbest
    have harith : i + 1 + pre.length = i + (p :: pre).length := by
      simp only [List.length_cons]
      omega
    show bestFitAux sz (pre ++ b :: post) (i + 1)
        (if bfTake sz p best then some (i, p.size) else best) =
      some (i + (p :: pre).length, b.size)
    rw [← harith]
    exact ih (i + 1) _ hstep (fun c hc => hpre c (by simp [hc]))

/-! ## Facts about `allocAt` -/

theorem allocAt_sumSizes (sz : Nat) (bs : List MemBlock) (j : Nat) :
    sumSizes (allocAt sz bs j) = sumSizes bs := by
  induction bs generalizing j with
  | nil => rfl
  | cons b rest ih =>
    cases j with
    | zero =>
      by_cases hsplit : sz + memBlockHeaderSize + HAL_MEM_ALIGN < b.size
      · simp only [allocAt, if_pos hsplit, sumSizes]
        omega
      · simp only [allocAt, if_neg hsplit, sumSizes]
    | succ j =>
      simp only [allocAt, sumSizes, ih j]

theorem allocAt_chain (sz a : Nat) (bs : List MemBlock) (j : Nat)
    (hc : ChainFrom a bs) : ChainFrom a (allocAt sz bs j) := by
  induction bs generalizing a j with
  | nil => exact hc
  | cons b rest ih =>
    obtain ⟨haddr, hrest⟩ := hc
    cases j with
    | zero =>
      by_cases hsplit : sz + memBlockHeaderSize + HAL_MEM_ALIGN < b.size
      · simp only [allocAt, if_pos hsplit]
        refine ⟨haddr, show b.addr + sz = a + sz by omega, ?_⟩
        show ChainFrom (a + sz + (b.size - sz)) rest
        have heq : a + sz + (b.size - sz) = a + b.size := by omega
        rw [heq]
        exact hrest
      · simp only [allocAt, if_neg hsplit]
        exact ⟨haddr, hrest⟩
    | succ j =>
      simp only [allocAt]
      exact ⟨haddr, ih (a + b.size) j hrest⟩

/-- Every block of `allocAt sz bs j` is an original block, an original block
marked used, an exact-fit used block at an original address, or a split
remainder. -/
theorem allocAt_mem (sz : Nat) (bs : List MemBlock) (j : Nat) :
    ∀ c ∈ allocAt sz bs j,
      c ∈ bs ∨
      (∃ b ∈ bs, c = { b with used := true }) ∨
      (∃ b ∈ bs, c = { addr := b.addr, size := sz, used := true }) ∨
      (∃ b ∈ bs, c = { addr := b.addr + sz, size := b.size - sz, used := false } ∧
        sz + memBlockHeaderSize + HAL_MEM_ALIGN < b.size) := by
  induction bs generalizing j with
  | nil =>
    intro c hc
    simp [allocAt] at hc
  | cons b rest ih =>
    cases j with
    | zero =>
      by_cases hsplit : sz + memBlockHeaderSize + HAL_MEM_ALIGN < b.size
      · simp only [allocAt, if_pos hsplit]
        intro c hc
        rcases List.mem_cons.mp hc with rfl | hc'
        · right; right; left
          exact ⟨b, by simp, rfl⟩
        rcases List.mem_cons.mp hc' with rfl | hmem
        · right; right; right
          exact ⟨b, by simp, rfl, hsplit⟩
        · left
          simp [hmem]
      · simp only [allocAt, if_neg hsplit]
        intro c hc
        rcases List.mem_cons.mp hc with rfl | hmem
        · right; left
          exact ⟨b, by simp, rfl⟩
        · left
          simp [hmem]
    | succ j =>
      simp only [allocAt]
      intro c hc
      rcases List.mem_cons.mp hc with rfl | hmem
      · left; simp
      · rcases ih j c hmem with h | ⟨d, hd, he⟩ | ⟨d, hd, he⟩ | ⟨d, hd, he, hs⟩
        · left; simp [h]
        · right; left; exact ⟨d, by simp [hd], he⟩
        · right; right; left; exact ⟨d, by simp [hd], he⟩
        · right; right; right; exact ⟨d, by simp [hd], he, hs⟩

theorem allocAt_pos (sz : Nat) (bs : List MemBlock) (j : Nat)
    (hpos : ∀ b ∈ bs, 0 < b.size) (hsz : 0 < sz) :
    ∀ b ∈ allocAt sz bs j, 0 < b.size := by
  intro c hc
  rcases allocAt_mem sz bs j c hc with h | ⟨d, hd, rfl⟩ | ⟨d, hd, rfl⟩ | ⟨d, hd, rfl, hs⟩
  · exact hpos c h
  · exact hpos d hd
  · exact hsz
  · show 0 < d.size - sz
    omega

theorem allocAt_align (sz : Nat) (bs : List MemBlock) (j : Nat)
    (hsz : 64 ∣ sz) (halign : ∀ b ∈ bs, 64 ∣ b.addr) :
    ∀ b ∈ allocAt sz bs j, 64 ∣ b.addr := by
  intro c hc
  rcases allocAt_mem sz bs j c hc with h | ⟨d, hd, rfl⟩ | ⟨d, hd, rfl⟩ | ⟨d, hd, rfl, hs⟩
  · exact halign c h
  · exact halign d hd
  · exact halign d hd
  · exact Nat.dvd_add (halign d hd) hsz

/-- The head of `allocAt` is either marked used or is the original head. -/
theorem allocAt_head (sz : Nat) (bs : List MemBlock) (j : Nat) (d : MemBlock)
    (hd : (allocAt sz bs j).head? = some d) :
    d.used = true ∨ bs.head? = some d := by
  cases bs with
  | nil => simp [allocAt] at hd
  | cons b rest =>
    cases j with
    | zero =>
      by_cases hsplit : sz + memBlockHeaderSize + HAL_MEM_ALIGN < b.size
      · simp only [allocAt, if_pos hsplit, List.head?_cons] at hd
        left
        obtain rfl : ({ addr := b.addr, size := sz, used := true } : MemBlock) = d := by
          simpa using hd
        rfl
      · simp only [allocAt, if_neg hsplit, List.head?_cons] at hd
        left
        obtain rfl : ({ b with used := true } : MemBlock) = d := by simpa using hd
        rfl
    | succ j =>
      simp only [allocAt, List.head?_cons] at hd
      right
      simpa using hd

theorem allocAt_noAdjFree (sz : Nat) (bs : List MemBlock) (j : Nat) (b : MemBlock)
    (hj : bs[j]? = some b) (hbu : b.used = false)
    (h : noAdjFree bs = true) : noAdjFree (allocAt sz bs j) = true := by
  induction bs generalizing j with
  | nil => simpa [allocAt] using h
  | cons c rest ih =>
    cases j with
    | zero =>
      have hcb : c = b := by simpa using hj
      subst hcb
      by_cases hsplit : sz + memBlockHeaderSize + HAL_MEM_ALIGN < c.size
      · simp only [allocAt, if_pos hsplit]
        have hYrest : noAdjFree
            ({ addr := c.addr + sz, size := c.size - sz, used := false } :: rest) = true := by
          refine noAdjFree_cons_of _ _ (noAdjFree_tail _ _ h) (Or.inr ?_)
          intro d hd
          cases rest with
          | nil => simp at hd
          | cons d' rest' =>
            have hdd : d' = d := by simpa using hd
            subst hdd
            rcases noAdjFree_cons c d' rest' h with hc' | hdu
            · rw [hbu] at hc'
              exact absurd hc' (by simp)
            · exact hdu
        exact noAdjFree_cons_of _ _ hYrest (Or.inl rfl)
      · simp only [allocAt, if_neg hsplit]
        exact noAdjFree_cons_of _ _ (noAdjFree_tail _ _ h) (Or.inl rfl)
    | succ j =>
      simp only [allocAt]
      have hj' : rest[j]? = some b := by simpa using hj
      refine noAdjFree_cons_of _ _ (ih j hj' (noAdjFree_tail _ _ h)) ?_
      by_cases hcu : c.used = true
      · exact Or.inl hcu
      · right
        intro d hd
        rcases allocAt_head sz rest j d hd with hdu | hhead
        · exact hdu
        · cases rest with
          | nil => simp at hhead
          | cons e rest' =>
            have hed : e = d := by simpa using hhead
            subst hed
            rcases noAdjFree_cons c e rest' h with hc' | he
            · exact absurd hc' hcu
            · exact he

/-- `allocAt` at the index right after `pre` rewrites exactly the chosen
block. -/
theorem allocAt_append (sz : Nat) (pre : List MemBlock) (b : MemBlock)
    (post : List MemBlock) :
    allocAt sz (pre ++ b :: post) pre.length =
      pre ++ (if sz + memBlockHeaderSize + HAL_MEM_ALIGN < b.size then
        { addr := b.addr, size := sz, used := true } ::
          { addr := b.addr + sz, size := b.size - sz, used := false } :: post
      else { b with used := true } :: post) := by
  induction pre with
  | nil => simp [allocAt]
  | cons p pre ih =>
    show p :: allocAt sz (pre ++ b :: post) pre.length =
      p :: (pre ++ (if sz + memBlockHeaderSize + HAL_MEM_ALIGN < b.size then
        { addr := b.addr, size := sz, used := true } ::
          { addr := b.addr + sz, size := b.size - sz, used := false } :: post
      else { b with used := true } :: post))
    rw [ih]

theorem getElem?_append_cons (pre : List MemBlock) (b : MemBlock)
    (post : List MemBlock) : (pre ++ b :: post)[pre.length]? = some b := by
  induction pre with
  | nil => simp
  | cons p pre ih => simpa using ih
/-! ## Facts about `mergeNextAll` -/

theorem merge_addr (b : MemBlock) (rest : List MemBlock) :
    (mergeNextAll b rest).1.addr = b.addr := by
  induction rest generalizing b with
  | nil => rfl
  | cons n rest ih =>
    by_cases hn : n.used
    · simp [mergeNextAll, hn]
    · simp only [mergeNextAll, if_neg hn]
      exact ih _

theorem merge_used (b : MemBlock) (rest : List MemBlock) :
    (mergeNextAll b rest).1.used = b.used := by
  induction rest generalizing b with
  | nil => rfl
  | cons n rest ih =>
    by_cases hn : n.used
    · simp [mergeNextAll, hn]
    · simp only [mergeNextAll, if_neg hn]
      exact ih _

theorem merge_size_ge (b : MemBlock) (rest : List MemBlock) :
    b.size ≤ (mergeNextAll b rest).1.size := by
  induction rest generalizing b with
  | nil => exact Nat.le_refl _
  | cons n rest ih =>
    by_cases hn : n.used
    · simp [mergeNextAll, hn]
    · simp only [mergeNextAll, if_neg hn]
      have := ih { b with size := b.size + n.size }
      simp only at this
      omega

theorem merge_sum (b : MemBlock) (rest : List MemBlock) :
    (mergeNextAll b rest).1.size + sumSizes (mergeNextAll b rest).2 =
      b.size + sumSizes rest := by
  induction rest generalizing b with
  | nil => rfl
  | cons n rest ih =>
    by_cases hn : n.used
    · simp [mergeNextAll, hn, sumSizes]
    · simp only [mergeNextAll, if_neg hn, sumSizes]
      have := ih { b with size := b.size + n.size }
      simp only at this
      omega

theorem merge_chain (b : MemBlock) (rest : List MemBlock)
    (hc : ChainFrom (b.addr + b.size) rest) :
    ChainFrom ((mergeNextAll b rest).1.addr + (mergeNextAll b rest).1.size)
      (mergeNextAll b rest).2 := by
  induction rest generalizing b with
  | nil => trivial
  | cons n rest ih =>
    obtain ⟨haddr, hrest⟩ := hc
    by_cases hn : n.used
    · simp only [mergeNextAll, if_pos hn]
      exact ⟨haddr, hrest⟩
    · simp only [mergeNextAll, if_neg hn]
      refine ih { b with size := b.size + n.size } ?_
      show ChainFrom (b.addr + (b.size + n.size)) rest
      have heq : b.addr + (b.size + n.size) = b.addr + b.size + n.size := by omega
      rw [heq]
      exact hrest

theorem merge_suffix (b : MemBlock) (rest : List MemBlock) :
    (mergeNextAll b rest).2 <:+ rest := by
  induction rest generalizing b with
  | nil => exact List.nil_suffix
  | cons n rest ih =>
    by_cases hn : n.used
    · simp [mergeNextAll, hn]
    · simp only [mergeNextAll, if_neg hn]
      exact (ih _).trans (List.suffix_cons n rest)

theorem merge_head_used (b : MemBlock) (rest : List MemBlock) :
    ∀ x, (mergeNextAll b rest).2.head? = some x → x.used = true := by
  induction rest generalizing b with
  | nil => intro x hx; simp [mergeNextAll] at hx
  | cons n rest ih =>
    intro x hx
    by_cases hn : n.used
    · simp only [mergeNextAll, if_pos hn, List.head?_cons] at hx
      obtain rfl : n = x := by simpa using hx
      exact hn
    · simp only [mergeNextAll, if_neg hn] at hx
      exact ih _ x hx

theorem merge_usedAddrs (b : MemBlock) (rest : List MemBlock) :
    usedAddrs (mergeNextAll b rest).2 = usedAddrs rest := by
  induction rest generalizing b with
  | nil => rfl
  | cons n rest ih =>
    by_cases hn : n.used
    · simp [mergeNextAll, hn]
    · simp only [mergeNextAll, if_neg hn, ih]
      simp [usedAddrs, List.filter_cons, hn]

/-! ## Facts about `freeAux` -/

theorem usedAddrs_cons (b : MemBlock) (l : List MemBlock) :
    usedAddrs (b :: l) =
      if b.used = true then b.addr :: usedAddrs l else usedAddrs l := by
  by_cases hb : b.used <;> simp [usedAddrs, List.filter_cons, hb]

theorem usedAddrs_mem (l : List MemBlock) (p : Nat) :
    p ∈ usedAddrs l ↔ ∃ x ∈ l, x.used = true ∧ x.addr = p := by
  simp only [usedAddrs, List.mem_map, List.mem_filter]
  constructor
  · rintro ⟨x, ⟨hx, hu⟩, rfl⟩
    exact ⟨x, hx, hu, rfl⟩
  · rintro ⟨x, hx, hu, rfl⟩
    exact ⟨x, ⟨hx, hu⟩, rfl⟩

theorem freeAux_one_found (ptr : Nat) (b : MemBlock) (h1 : b.addr = ptr)
    (h2 : b.used = true) : freeAux ptr [b] = [{ b with used := false }] := by
  simp [freeAux, h1, h2]

theorem freeAux_one_skip (ptr : Nat) (b : MemBlock)
    (h : b.addr ≠ ptr ∨ b.used = false) : freeAux ptr [b] = [b] := by
  rcases h with h | h <;> simp [freeAux, h]

theorem freeAux_found1 (ptr : Nat) (b c : MemBlock) (rest : List MemBlock)
    (h1 : b.addr = ptr) (h2 : b.used = true) :
    freeAux ptr (b :: c :: rest) =
      (mergeNextAll { b with used := false } (c :: rest)).1 ::
        (mergeNextAll { b with used := false } (c :: rest)).2 := by
  simp [freeAux, h1, h2]

theorem freeAux_found1_unused (ptr : Nat) (b c : MemBlock) (rest : List MemBlock)
    (h1 : b.addr = ptr) (h2 : b.used = false) :
    freeAux ptr (b :: c :: rest) = b :: c :: rest := by
  simp [freeAux, h1, h2]

theorem freeAux_found2_prevUsed (ptr : Nat) (b c : MemBlock) (rest : List MemBlock)
    (h1 : b.addr ≠ ptr) (h2 : c.addr = ptr) (h3 : c.used = true)
    (h4 : b.used = true) :
    freeAux ptr (b :: c :: rest) =
      b :: (mergeNextAll { c with used := false } rest).1 ::
        (mergeNextAll { c with used := false } rest).2 := by
  simp [freeAux, h1, h2, h3, h4]

theorem freeAux_found2_prevFree (ptr : Nat) (b c : MemBlock) (rest : List MemBlock)
    (h1 : b.addr ≠ ptr) (h2 : c.addr = ptr) (h3 : c.used = true)
    (h4 : b.used = false) :
    freeAux ptr (b :: c :: rest) =
      { b with size := b.size + (mergeNextAll { c with used := false } rest).1.size } ::
        (mergeNextAll { c with used := false } rest).2 := by
  simp [freeAux, h1, h2, h3, h4]

theorem freeAux_found2_unused (ptr : Nat) (b c : MemBlock) (rest : List MemBlock)
    (h1 : b.addr ≠ ptr) (h2 : c.addr = ptr) (h3 : c.used = false) :
    freeAux ptr (b :: c :: rest) = b :: c :: rest := by
  simp [freeAux, h1, h2, h3]

theorem freeAux_skip (ptr : Nat) (b c : MemBlock) (rest : List MemBlock)
    (h1 : b.addr ≠ ptr) (h2 : c.addr ≠ ptr) :
    freeAux ptr (b :: c :: rest) = b :: freeAux ptr (c :: rest) := by
  simp [freeAux, h1, h2]

theorem freeAux_sumSizes (ptr : Nat) (bs : List MemBlock) :
    sumSizes (freeAux ptr bs) = sumSizes bs := by
  induction bs with
  | nil => rfl
  | cons b rest ih =>
    cases rest with
    | nil =>
      by_cases h1 : b.addr = ptr
      · by_cases h2 : b.used = true
        · rw [freeAux_one_found ptr b h1 h2]
          simp [sumSizes]
        · rw [freeAux_one_skip ptr b (Or.inr (by simpa using h2))]
      · rw [freeAux_one_skip ptr b (Or.inl h1)]
    | cons c rest' =>
      by_cases h1 : b.addr = ptr
      · by_cases h2 : b.used = true
        · rw [freeAux_found1 ptr b c rest' h1 h2]
          simp only [sumSizes]
          have hm := merge_sum { b with used := false } (c :: rest')
          simp only [sumSizes] at hm ⊢
          omega
        · rw [freeAux_found1_unused ptr b c rest' h1 (by simpa using h2)]
      · by_cases h2 : c.addr = ptr
        · by_cases h3 : c.used = true
          · by_cases h4 : b.used = true
            · rw [freeAux_found2_prevUsed ptr b c rest' h1 h2 h3 h4]
              have hm := merge_sum { c with used := false } rest'
              simp only [sumSizes] at hm ⊢
              omega
            · rw [freeAux_found2_prevFree ptr b c rest' h1 h2 h3 (by simpa using h4)]
              have hm := merge_sum { c with used := false } rest'
              simp only [sumSizes] at hm ⊢
              omega
          · rw [freeAux_found2_unused ptr b c rest' h1 h2 (by simpa using h3)]
        · rw [freeAux_skip ptr b c rest' h1 h2]
          simp only [sumSizes, ih]

theorem freeAux_chain (ptr : Nat) (bs : List MemBlock) (a : Nat)
    (hc : ChainFrom a bs) : ChainFrom a (freeAux ptr bs) := by
  induction bs generalizing a with
  | nil => exact hc
  | cons b rest ih =>
    cases rest with
    | nil =>
      obtain ⟨hb, -⟩ := hc
      by_cases h1 : b.addr = ptr
      · by_cases h2 : b.used = true
        · rw [freeAux_one_found ptr b h1 h2]
          exact ⟨hb, trivial⟩
        · rw [freeAux_one_skip ptr b (Or.inr (by simpa using h2))]
          exact ⟨hb, trivial⟩
      · rw [freeAux_one_skip ptr b (Or.inl h1)]
        exact ⟨hb, trivial⟩
    | cons c rest' =>
      obtain ⟨hb, hc2, hrest⟩ := hc
      by_cases h1 : b.addr = ptr
      · by_cases h2 : b.used = true
        · rw [freeAux_found1 ptr b c rest' h1 h2]
          have hm := merge_chain { b with used := false } (c :: rest') (by
            show ChainFrom (b.addr + b.size) (c :: rest')
            rw [hb]
            exact ⟨hc2, hrest⟩)
          have hma : (mergeNextAll { b with used := false } (c :: rest')).1.addr = a := by
            rw [merge_addr]
            simpa using hb
          rw [hma] at hm
          exact ⟨hma, hm⟩
        · rw [freeAux_found1_unused ptr b c rest' h1 (by simpa using h2)]
          exact ⟨hb, hc2, hrest⟩
      · by_cases h2 : c.addr = ptr
        · by_cases h3 : c.used = true
          · have hm := merge_chain { c with used := false } rest' (by
              show ChainFrom (c.addr + c.size) rest'
              rw [hc2]
              exact hrest)
            have hma : (mergeNextAll { c with used := false } rest').1.addr = a + b.size := by
              rw [merge_addr]
              simpa using hc2
            rw [hma] at hm
            by_cases h4 : b.used = true
            · rw [freeAux_found2_prevUsed ptr b c rest' h1 h2 h3 h4]
              exact ⟨hb, hma, hm⟩
            · rw [freeAux_found2_prevFree ptr b c rest' h1 h2 h3 (by simpa using h4)]
              refine ⟨hb, ?_⟩
              show ChainFrom (a + (b.size +
                (mergeNextAll { c with used := false } rest').1.size)) _
              have heq : a + (b.size +
                  (mergeNextAll { c with used := false } rest').1.size) =
                  a + b.size + (mergeNextAll { c with used := false } rest').1.size := by
                omega
              rw [heq]
              exact hm
          · rw [freeAux_found2_unused ptr b c rest' h1 h2 (by simpa using h3)]
            exact ⟨hb, hc2, hrest⟩
        · rw [freeAux_skip ptr b c rest' h1 h2]
          exact ⟨hb, ih (a + b.size) ⟨hc2, hrest⟩⟩

/-- Every block produced by `freeAux` sits at the address of an original
block, with at least that block's size. -/
theorem freeAux_mem (ptr : Nat) (bs : List MemBlock) :
    ∀ x ∈ freeAux ptr bs, ∃ d ∈ bs, x.addr = d.addr ∧ d.size ≤ x.size := by
  induction bs with
  | nil => simp [freeAux]
  | cons b rest ih =>
    cases rest with
    | nil =>
      intro x hx
      by_cases h1 : b.addr = ptr
      · by_cases h2 : b.used = true
        · rw [freeAux_one_found ptr b h1 h2] at hx
          have hxe : x = { b with used := false } := by simpa using hx
          exact ⟨b, by simp, by simp [hxe], by simp [hxe]⟩
        · rw [freeAux_one_skip ptr b (Or.inr (by simpa using h2))] at hx
          have hxe : x = b := by simpa using hx
          exact ⟨b, by simp, by simp [hxe], by simp [hxe]⟩
      · rw [freeAux_one_skip ptr b (Or.inl h1)] at hx
        have hxe : x = b := by simpa using hx
        exact ⟨b, by simp, by simp [hxe], by simp [hxe]⟩
    | cons c rest' =>
      intro x hx
      by_cases h1 : b.addr = ptr
      · by_cases h2 : b.used = true
        · rw [freeAux_found1 ptr b c rest' h1 h2] at hx
          rcases List.mem_cons.mp hx with hxe | hmem
          · refine ⟨b, by simp, ?_, ?_⟩
            · rw [hxe, merge_addr]
            · rw [hxe]
              have := merge_size_ge { b with used := false } (c :: rest')
              simpa using this
          · have hsub := (merge_suffix { b with used := false } (c :: rest')).subset hmem
            exact ⟨x, by simp [hsub], rfl, Nat.le_refl _⟩
        · rw [freeAux_found1_unused ptr b c rest' h1 (by simpa using h2)] at hx
          exact ⟨x, hx, rfl, Nat.le_refl _⟩
      · by_cases h2 : c.addr = ptr
        · by_cases h3 : c.used = true
          · by_cases h4 : b.used = true
            · rw [freeAux_found2_prevUsed ptr b c rest' h1 h2 h3 h4] at hx
              rcases List.mem_cons.mp hx with hxe | hmem
              · exact ⟨b, by simp, by simp [hxe], by simp [hxe]⟩
              rcases List.mem_cons.mp hmem with hxe | hmem'
              · refine ⟨c, by simp, ?_, ?_⟩
                · rw [hxe, merge_addr]
                · rw [hxe]
                  have := merge_size_ge { c with used := false } rest'
                  simpa using this
              · have hsub := (merge_suffix { c with used := false } rest').subset hmem'
                exact ⟨x, by simp [hsub], rfl, Nat.le_refl _⟩
            · rw [freeAux_found2_prevFree ptr b c rest' h1 h2 h3
                (by simpa using h4)] at hx
              rcases List.mem_cons.mp hx with hxe | hmem
              · refine ⟨b, by simp, by simp [hxe], ?_⟩
                rw [hxe]
                simp
              · have hsub := (merge_suffix { c with used := false } rest').subset hmem
                exact ⟨x, by simp [hsub], rfl, Nat.le_refl _⟩
          · rw [freeAux_found2_unused ptr b c rest' h1 h2 (by simpa using h3)] at hx
            exact ⟨x, hx, rfl, Nat.le_refl _⟩
        · rw [freeAux_skip ptr b c rest' h1 h2] at hx
          rcases List.mem_cons.mp hx with hxe | hmem
          · exact ⟨b, by simp, by simp [hxe], by simp [hxe]⟩
          · obtain ⟨d, hd, he, hs⟩ := ih x hmem
            exact ⟨d, by simp [hd], he, hs⟩

/-- When the head of the list is not the freed block, `freeAux` keeps a head
with the same in-use flag (its size may have grown by a prev-merge). -/
theorem freeAux_head (ptr : Nat) (c : MemBlock) (rest : List MemBlock)
    (h : c.addr ≠ ptr) :
    ∃ d t, freeAux ptr (c :: rest) = d :: t ∧ d.used = c.used := by
  cases rest with
  | nil =>
    rw [freeAux_one_skip ptr c (Or.inl h)]
    exact ⟨c, [], rfl, rfl⟩
  | cons e rest' =>
    by_cases h2 : e.addr = ptr
    · by_cases h3 : e.used = true
      · by_cases h4 : c.used = true
        · rw [freeAux_found2_prevUsed ptr c e rest' h h2 h3 h4]
          exact ⟨c, _, rfl, rfl⟩
        · rw [freeAux_found2_prevFree ptr c e rest' h h2 h3 (by simpa using h4)]
          exact ⟨_, _, rfl, rfl⟩
      · rw [freeAux_found2_unused ptr c e rest' h h2 (by simpa using h3)]
        exact ⟨c, _, rfl, rfl⟩
    · rw [freeAux_skip ptr c e rest' h h2]
      exact ⟨c, _, rfl, rfl⟩

theorem freeAux_noAdjFree (ptr : Nat) (bs : List MemBlock)
    (h : noAdjFree bs = true) : noAdjFree (freeAux ptr bs) = true := by
  induction bs with
  | nil => exact h
  | cons b rest ih =>
    cases rest with
    | nil =>
      by_cases h1 : b.addr = ptr
      · by_cases h2 : b.used = true
        · rw [freeAux_one_found ptr b h1 h2]
          rfl
        · rw [freeAux_one_skip ptr b (Or.inr (by simpa using h2))]
          exact h
      · rw [freeAux_one_skip ptr b (Or.inl h1)]
        exact h
    | cons c rest' =>
      by_cases h1 : b.addr = ptr
      · by_cases h2 : b.used = true
        · rw [freeAux_found1 ptr b c rest' h1 h2]
          refine noAdjFree_cons_of _ _ ?_ (Or.inr ?_)
          · exact noAdjFree_suffix _ _
              (merge_suffix { b with used := false } (c :: rest'))
              (noAdjFree_tail _ _ h)
          · exact merge_head_used { b with used := false } (c :: rest')
        · rw [freeAux_found1_unused ptr b c rest' h1 (by simpa using h2)]
          exact h
      · by_cases h2 : c.addr = ptr
        · by_cases h3 : c.used = true
          · have hinner : noAdjFree ((mergeNextAll { c with used := false } rest').1 ::
                (mergeNextAll { c with used := false } rest').2) = true := by
              refine noAdjFree_cons_of _ _ ?_ (Or.inr ?_)
              · exact noAdjFree_suffix _ _
                  (merge_suffix { c with used := false } rest')
                  (noAdjFree_tail _ _ (noAdjFree_tail _ _ h))
              · exact merge_head_used { c with used := false } rest'
            by_cases h4 : b.used = true
            · rw [freeAux_found2_prevUsed ptr b c rest' h1 h2 h3 h4]
              exact noAdjFree_cons_of _ _ hinner (Or.inl h4)
            · rw [freeAux_found2_prevFree ptr b c rest' h1 h2 h3 (by simpa using h4)]
              refine noAdjFree_cons_of _ _ ?_ (Or.inr ?_)
              · exact noAdjFree_suffix _ _
                  (merge_suffix { c with used := false } rest')
                  (noAdjFree_tail _ _ (noAdjFree_tail _ _ h))
              · exact merge_head_used { c with used := false } rest'
          · rw [freeAux_found2_unused ptr b c rest' h1 h2 (by simpa using h3)]
            exact h
        · rw [freeAux_skip ptr b c rest' h1 h2]
          refine noAdjFree_cons_of _ _ (ih (noAdjFree_tail _ _ h)) ?_
          by_cases h4 : b.used = true
          · exact Or.inl h4
          · right
            intro d hd
            obtain ⟨d0, t, heq, hu⟩ := freeAux_head ptr c rest' h2
            rw [heq, List.head?_cons] at hd
            obtain rfl : d0 = d := by simpa using hd
            rcases noAdjFree_cons b c rest' h with hb | hcu
            · exact absurd hb h4
            · rw [hu, hcu]

theorem not_mem_usedAddrs_of_unused (bs : List MemBlock) (x : MemBlock)
    (hnd : (bs.map (·.addr)).Nodup) (hx : x ∈ bs) (hu : x.used = false) :
    x.addr ∉ usedAddrs bs := by
  intro hmem
  obtain ⟨y, hy, hyu, hye⟩ := (usedAddrs_mem bs x.addr).mp hmem
  have hxy : y = x := List.inj_on_of_nodup_map hnd hy hx hye
  rw [hxy, hu] at hyu
  exact absurd hyu (by simp)

/-- Freeing a pointer removes exactly that address from the outstanding
(used-block) addresses, provided block addresses are distinct. -/
theorem freeAux_usedAddrs (ptr : Nat) (bs : List MemBlock)
    (hnd : (bs.map (·.addr)).Nodup) :
    usedAddrs (freeAux ptr bs) = (usedAddrs bs).erase ptr := by
  induction bs with
  | nil => simp [freeAux, usedAddrs]
  | cons b rest ih =>
    cases rest with
    | nil =>
      by_cases h1 : b.addr = ptr
      · by_cases h2 : b.used = true
        · rw [freeAux_one_found ptr b h1 h2]
          rw [usedAddrs_cons, usedAddrs_cons]
          simp [h1, h2, usedAddrs]
        · rw [freeAux_one_skip ptr b (Or.inr (by simpa using h2))]
          rw [usedAddrs_cons]
          simp [h2, usedAddrs]
      · by_cases h2 : b.used = true
        · rw [freeAux_one_skip ptr b (Or.inl h1)]
          rw [usedAddrs_cons]
          simp only [h2, if_pos]
          rw [List.erase_cons_tail]
          · simp [usedAddrs]
          · simpa using h1
        · rw [freeAux_one_skip ptr b (Or.inl h1)]
          rw [usedAddrs_cons]
          simp [h2, usedAddrs]
    | cons c rest' =>
      rw [List.map_cons] at hnd
      have hnd' : ((c :: rest').map (·.addr)).Nodup := hnd.of_cons
      have hbne : b.addr ∉ ((c :: rest').map (·.addr)) :=
        (List.nodup_cons.mp hnd).1
      by_cases h1 : b.addr = ptr
      · by_cases h2 : b.used = true
        · rw [freeAux_found1 ptr b c rest' h1 h2]
          rw [usedAddrs_cons (mergeNextAll { b with used := false } (c :: rest')).1,
            usedAddrs_cons b]
          have hm1u : (mergeNextAll { b with used := false } (c :: rest')).1.used
              = false := by
            rw [merge_used]
          rw [hm1u]
          simp only [Bool.false_eq_true, if_false, h2, if_pos]
          rw [merge_usedAddrs, h1, List.erase_cons_head]
        · rw [freeAux_found1_unused ptr b c rest' h1 (by simpa using h2)]
          have hnm : ptr ∉ usedAddrs (b :: c :: rest') := by
            rw [← h1]
            exact not_mem_usedAddrs_of_unused _ b hnd (by simp) (by simpa using h2)
          rw [List.erase_of_not_mem hnm]
      · by_cases h2 : c.addr = ptr
        · by_cases h3 : c.used = true
          · have hmu : usedAddrs (mergeNextAll { c with used := false } rest').2 =
                usedAddrs rest' := merge_usedAddrs _ _
            have hm1u : (mergeNextAll { c with used := false } rest').1.used
                = false := by
              rw [merge_used]
            by_cases h4 : b.used = true
            · rw [freeAux_found2_prevUsed ptr b c rest' h1 h2 h3 h4]
              rw [usedAddrs_cons b, usedAddrs_cons, hm1u]
              simp only [Bool.false_eq_true, if_false, h4, if_pos]
              rw [hmu, usedAddrs_cons b, usedAddrs_cons c]
              simp only [h4, if_pos, h3]
              rw [List.erase_cons_tail]
              · rw [h2, List.erase_cons_head]
              · simpa using h1
            · rw [freeAux_found2_prevFree ptr b c rest' h1 h2 h3 (by simpa using h4)]
              rw [usedAddrs_cons]
              have : ({ b with size := b.size +
                  (mergeNextAll { c with used := false } rest').1.size } :
                  MemBlock).used = b.used := rfl
              rw [this]
              simp only [h4]
              simp only [Bool.false_eq_true, if_false]
              rw [hmu, usedAddrs_cons b, usedAddrs_cons c]
              simp only [h4, h3, if_pos]
              simp only [Bool.false_eq_true, if_false]
              rw [h2, List.erase_cons_head]
          · rw [freeAux_found2_unused ptr b c rest' h1 h2 (by simpa using h3)]
            have hnm : ptr ∉ usedAddrs (b :: c :: rest') := by
              rw [← h2]
              exact not_mem_usedAddrs_of_unused _ c hnd (by simp) (by simpa using h3)
            rw [List.erase_of_not_mem hnm]
        · rw [freeAux_skip ptr b c rest' h1 h2]
          rw [usedAddrs_cons b, usedAddrs_cons b, ih hnd']
          by_cases h4 : b.used = true
          · simp only [h4, if_pos]
            rw [List.erase_cons_tail]
            simpa using h1
          · simp only [h4]
            simp only [Bool.false_eq_true, if_false]

/-! ## Shape of `hal_mem_alloc` results -/

/-- On a successful scan, `hal_mem_alloc` returns the chosen block's base
address and rewrites the list with `allocAt` at the chosen index. -/
theorem hal_mem_alloc_eq (ctx : HalMemContext) (size : Nat) (h0 : size ≠ 0)
    (j s : Nat) (hbf : bestFitAux (align_size size) ctx.blocks 0 none = some (j, s))
    (b : MemBlock) (hj : ctx.blocks[j]? = some b) :
    hal_mem_alloc ctx size =
      (some b.addr, { ctx with blocks := allocAt (align_size size) ctx.blocks j }) := by
  unfold hal_mem_alloc
  rw [if_neg h0]
  simp only [hbf, hj]

/-- If no unused block can satisfy the (rounded) request, allocation fails
and leaves the context untouched. -/
theorem hal_mem_alloc_none (ctx : HalMemContext) (size : Nat)
    (h : ∀ b ∈ ctx.blocks, b.used = false → b.size < align_size size) :
    hal_mem_alloc ctx size = (none, ctx) := by
  unfold hal_mem_alloc
  by_cases h0 : size = 0
  · rw [if_pos h0]
  · rw [if_neg h0]
    simp only [bestFitAux_none _ _ _ h]

/-- Case split on an allocation: either the context is unchanged, or the list
was rewritten by `allocAt` at an index holding an unused block that satisfies
the rounded request. -/
theorem hal_mem_alloc_cases (ctx : HalMemContext) (size : Nat) :
    (hal_mem_alloc ctx size).2 = ctx ∨
    ∃ j b, ctx.blocks[j]? = some b ∧ b.used = false ∧ align_size size ≤ b.size ∧
      0 < align_size size ∧
      (hal_mem_alloc ctx size).2 =
        { ctx with blocks := allocAt (align_size size) ctx.blocks j } := by
  by_cases h0 : size = 0
  · left
    unfold hal_mem_alloc
    rw [if_pos h0]
  · cases hbf : bestFitAux (align_size size) ctx.blocks 0 none with
    | none =>
      left
      unfold hal_mem_alloc
      rw [if_neg h0]
      simp only [hbf]
    | some js =>
      obtain ⟨j, s⟩ := js
      rcases bestFitAux_sound _ _ _ _ _ _ hbf with h' | ⟨k, b, hk, hj, hs, hu, hsz⟩
      · exact absurd h' (by simp)
      · obtain rfl : j = k := by omega
        right
        refine ⟨j, b, hk, hu, hsz, ?_, ?_⟩
        · exact Nat.lt_of_lt_of_le (Nat.pos_of_ne_zero h0) (align_size_ge size)
        · rw [hal_mem_alloc_eq ctx size h0 j s hbf b hk]

/-! ## Invariant preservation over operation sequences -/

/-- Structural invariant of a live allocator context: the block list tiles
the window contiguously, sizes sum to the window size, and every block is
nonempty. -/
def CtxInv (ctx : HalMemContext) : Prop :=
  ChainFrom ctx.base_addr ctx.blocks ∧
    sumSizes ctx.blocks = ctx.total_size ∧
    ∀ b ∈ ctx.blocks, 0 < b.size

/-- All block base addresses are 64-byte aligned. -/
def CtxAligned (ctx : HalMemContext) : Prop :=
  ∀ b ∈ ctx.blocks, 64 ∣ b.addr

theorem applyOp_fields (ctx : HalMemContext) (op : MemOp) :
    (applyOp ctx op).base_addr = ctx.base_addr ∧
      (applyOp ctx op).total_size = ctx.total_size := by
  cases op with
  | alloc s =>
    rcases hal_mem_alloc_cases ctx s with h | ⟨j, b, _, _, _, _, h⟩
    · simp [applyOp, h]
    · simp [applyOp, h]
  | free p =>
    simp [applyOp, hal_mem_free]

theorem applyOp_CtxInv (ctx : HalMemContext) (op : MemOp) (h : CtxInv ctx) :
    CtxInv (applyOp ctx op) := by
  obtain ⟨hc, hs, hp⟩ := h
  obtain ⟨hbase, htot⟩ := applyOp_fields ctx op
  cases op with
  | alloc s =>
    rcases hal_mem_alloc_cases ctx s with heq | ⟨j, b, hj, hu, hsz, hpos, heq⟩
    · simp only [applyOp] at heq ⊢
      rw [heq]
      exact ⟨hc, hs, hp⟩
    · simp only [applyOp] at heq ⊢
      rw [heq]
      refine ⟨allocAt_chain _ _ _ _ hc, ?_, allocAt_pos _ _ _ hp hpos⟩
      rw [allocAt_sumSizes]
      exact hs
  | free p =>
    refine ⟨freeAux_chain _ _ _ hc, ?_, ?_⟩
    · show sumSizes (freeAux p ctx.blocks) = ctx.total_size
      rw [freeAux_sumSizes]
      exact hs
    · intro x hx
      obtain ⟨d, hd, -, hds⟩ := freeAux_mem p ctx.blocks x hx
      exact Nat.lt_of_lt_of_le (hp d hd) hds

theorem applyOp_noAdj (ctx : HalMemContext) (op : MemOp)
    (h : noAdjFree ctx.blocks = true) : noAdjFree (applyOp ctx op).blocks = true := by
  cases op with
  | alloc s =>
    rcases hal_mem_alloc_cases ctx s with heq | ⟨j, b, hj, hu, hsz, hpos, heq⟩
    · simp only [applyOp] at heq ⊢
      rw [heq]
      exact h
    · simp only [applyOp] at heq ⊢
      rw [heq]
      exact allocAt_noAdjFree _ _ _ b hj hu h
  | free p =>
    exact freeAux_noAdjFree p ctx.blocks h

theorem applyOp_aligned (ctx : HalMemContext) (op : MemOp)
    (h : CtxAligned ctx) : CtxAligned (applyOp ctx op) := by
  cases op with
  | alloc s =>
    rcases hal_mem_alloc_cases ctx s with heq | ⟨j, b, hj, hu, hsz, hpos, heq⟩
    · simp only [applyOp] at heq ⊢
      rw [heq]
      exact h
    · simp only [applyOp] at heq ⊢
      rw [heq]
      exact allocAt_align _ _ _ (align_size_dvd s) h
  | free p =>
    intro x hx
    obtain ⟨d, hd, he, -⟩ := freeAux_mem p ctx.blocks x hx
    rw [he]
    exact h d hd

theorem runOps_fields (ctx : HalMemContext) (ops : List MemOp) :
    (runOps ctx ops).base_addr = ctx.base_addr ∧
      (runOps ctx ops).total_size = ctx.total_size := by
  induction ops generalizing ctx with
  | nil => exact ⟨rfl, rfl⟩
  | cons op ops ih =>
    obtain ⟨h1, h2⟩ := ih (applyOp ctx op)
    obtain ⟨h3, h4⟩ := applyOp_fields ctx op
    exact ⟨h1.trans h3, h2.trans h4⟩

theorem runOps_CtxInv (ctx : HalMemContext) (ops : List MemOp) (h : CtxInv ctx) :
    CtxInv (runOps ctx ops) := by
  induction ops generalizing ctx with
  | nil => exact h
  | cons op ops ih => exact ih _ (applyOp_CtxInv ctx op h)

theorem runOps_noAdj (ctx : HalMemContext) (ops : List MemOp)
    (h : noAdjFree ctx.blocks = true) : noAdjFree (runOps ctx ops).blocks = true := by
  induction ops generalizing ctx with
  | nil => exact h
  | cons op ops ih => exact ih _ (applyOp_noAdj ctx op h)

theorem runOps_aligned (ctx : HalMemContext) (ops : List MemOp)
    (h : CtxAligned ctx) : CtxAligned (runOps ctx ops) := by
  induction ops generalizing ctx with
  | nil => exact h
  | cons op ops ih => exact ih _ (applyOp_aligned ctx op h)

theorem hal_mem_init_CtxInv (base S : Nat) (hS : 0 < S) :
    CtxInv (hal_mem_init base S) := by
  refine ⟨⟨rfl, trivial⟩, ?_, ?_⟩
  · simp [hal_mem_init, sumSizes]
  · intro b hb
    have : b = { addr := base, size := S, used := false } := by
      simpa [hal_mem_init] using hb
    rw [this]
    exact hS

/-- Chain and size-sum invariants alone (no positivity); they hold even over
a zero-sized window. -/
def CtxInvWeak (ctx : HalMemContext) : Prop :=
  ChainFrom ctx.base_addr ctx.blocks ∧ sumSizes ctx.blocks = ctx.total_size

theorem applyOp_CtxInvWeak (ctx : HalMemContext) (op : MemOp)
    (h : CtxInvWeak ctx) : CtxInvWeak (applyOp ctx op) := by
  obtain ⟨hc, hs⟩ := h
  cases op with
  | alloc s =>
    rcases hal_mem_alloc_cases ctx s with heq | ⟨j, b, hj, hu, hsz, hpos, heq⟩
    · simp only [applyOp] at heq ⊢
      rw [heq]
      exact ⟨hc, hs⟩
    · simp only [applyOp] at heq ⊢
      rw [heq]
      refine ⟨allocAt_chain _ _ _ _ hc, ?_⟩
      rw [allocAt_sumSizes]
      exact hs
  | free p =>
    refine ⟨freeAux_chain _ _ _ hc, ?_⟩
    show sumSizes (freeAux p ctx.blocks) = ctx.total_size
    rw [freeAux_sumSizes]
    exact hs

theorem runOps_CtxInvWeak (ctx : HalMemContext) (ops : List MemOp)
    (h : CtxInvWeak ctx) : CtxInvWeak (runOps ctx ops) := by
  induction ops generalizing ctx with
  | nil => exact h
  | cons op ops ih => exact ih _ (applyOp_CtxInvWeak ctx op h)

theorem mem_of_getElem_opt (l : List MemBlock) (n : Nat) (a : MemBlock)
    (h : l[n]? = some a) : a ∈ l := by
  obtain ⟨hn, rfl⟩ := List.getElem?_eq_some.mp h
  exact List.getElem_mem _

theorem size_le_sumSizes (bs : List MemBlock) (b : MemBlock) (hb : b ∈ bs) :
    b.size ≤ sumSizes bs := by
  induction bs with
  | nil => simp at hb
  | cons c rest ih =>
    simp only [sumSizes]
    rcases List.mem_cons.mp hb with rfl | hmem
    · omega
    · have := ih hmem
      omega

/-- Success shape of an allocation: the returned address is the base of an
unused block that satisfies the rounded request. -/
theorem hal_mem_alloc_some (ctx : HalMemContext) (size addr : Nat)
    (h : (hal_mem_alloc ctx size).1 = some addr) :
    ∃ b ∈ ctx.blocks, b.used = false ∧ align_size size ≤ b.size ∧
      addr = b.addr ∧ size ≠ 0 := by
  by_cases h0 : size = 0
  · rw [h0] at h
    simp [hal_mem_alloc] at h
  cases hbf : bestFitAux (align_size size) ctx.blocks 0 none with
  | none =>
    unfold hal_mem_alloc at h
    rw [if_neg h0] at h
    simp only [hbf] at h
    cases h
  | some js =>
    obtain ⟨j, s'⟩ := js
    rcases bestFitAux_sound _ _ _ _ _ _ hbf with h' | ⟨k, b, hk, hj, hs, hu, hsz⟩
    · exact absurd h' (by simp)
    obtain rfl : j = k := by omega
    rw [hal_mem_alloc_eq ctx size h0 j s' hbf b hk] at h
    have haddr : addr = b.addr := by simpa using h.symm
    exact ⟨b, mem_of_getElem_opt _ _ _ hk, hu, hsz, haddr, h0⟩

/-- Freeing every outstanding allocation, one `hal_mem_free` per used block,
in any order, leaves a fully free list whose available size is the window
size. -/
theorem free_all_available (ctx : HalMemContext) (hinv : CtxInv ctx)
    (ps : List Nat) (hperm : ps.Perm (usedAddrs ctx.blocks)) :
    hal_mem_available (runOps ctx (ps.map MemOp.free)) = ctx.total_size := by
  induction ps generalizing ctx with
  | nil =>
    have hempty : usedAddrs ctx.blocks = [] := (hperm.symm).eq_nil
    show sumFree ctx.blocks = ctx.total_size
    rw [sumFree_eq_sumSizes _ (usedAddrs_nil_all_free _ hempty)]
    exact hinv.2.1
  | cons p ps ih =>
    obtain ⟨hc, hs, hp⟩ := hinv
    have hnd : (ctx.blocks.map (·.addr)).Nodup := chain_nodup _ _ hc hp
    have hinv' : CtxInv (hal_mem_free ctx p) :=
      applyOp_CtxInv ctx (MemOp.free p) ⟨hc, hs, hp⟩
    have hperm' : ps.Perm (usedAddrs (hal_mem_free ctx p).blocks) := by
      show ps.Perm (usedAddrs (freeAux p ctx.blocks))
      rw [freeAux_usedAddrs p ctx.blocks hnd]
      exact (List.cons_perm_iff_perm_erase.mp hperm).2
    exact ih (hal_mem_free ctx p) hinv' hperm'

/-- C1: starting from a fresh allocator over a window of size `S`, after any
sequence of `hal_mem_alloc`/`hal_mem_free` calls the block sizes still sum to
`S`, and freeing every outstanding allocation (the used-block addresses, in
any order) brings `hal_mem_available` back to exactly `S`. -/
theorem hal_mem_total_conserved_and_free_all (base S : Nat) (hS : 0 < S)
    (ops : List MemOp) (ps : List Nat)
    (hperm : ps.Perm (usedAddrs (runOps (hal_mem_init base S) ops).blocks)) :
    sumSizes (runOps (hal_mem_init base S) ops).blocks = S ∧
    hal_mem_available
      (runOps (runOps (hal_mem_init base S) ops) (ps.map MemOp.free)) = S := by
  have hinv := runOps_CtxInv _ ops (hal_mem_init_CtxInv base S hS)
  have hfields := runOps_fields (hal_mem_init base S) ops
  constructor
  · calc sumSizes (runOps (hal_mem_init base S) ops).blocks
        = (runOps (hal_mem_init base S) ops).total_size := hinv.2.1
      _ = (hal_mem_init base S).total_size := hfields.2
      _ = S := rfl
  · calc hal_mem_available
          (runOps (runOps (hal_mem_init base S) ops) (ps.map MemOp.free))
        = (runOps (hal_mem_init base S) ops).total_size :=
          free_all_available _ hinv ps hperm
      _ = (hal_mem_init base S).total_size := hfields.2
      _ = S := rfl

/-- C1 witness: a concrete run (two allocations, one free) whose single
outstanding allocation sits at address 128; freeing it restores the full
1024-byte window. -/
theorem hal_mem_total_conserved_and_free_all_witness :
    0 < 1024 ∧
    (sumSizes (runOps (hal_mem_init 0 1024)
        [MemOp.alloc 100, MemOp.alloc 100, MemOp.free 0]).blocks = 1024 ∧
      hal_mem_available (runOps (runOps (hal_mem_init 0 1024)
        [MemOp.alloc 100, MemOp.alloc 100, MemOp.free 0])
        ([128].map MemOp.free)) = 1024) :=
  ⟨by decide, hal_mem_total_conserved_and_free_all 0 1024 (by decide)
    [MemOp.alloc 100, MemOp.alloc 100, MemOp.free 0] [128] (by
      have h : usedAddrs (runOps (hal_mem_init 0 1024)
          [MemOp.alloc 100, MemOp.alloc 100, MemOp.free 0]).blocks = [128] := by
        decide
      rw [h])⟩

/-- C2: after any sequence of `hal_mem_alloc`/`hal_mem_free` calls on a fresh
allocator, no two adjacent blocks in the list are both free: `hal_mem_free`
merges forward then backward, and `hal_mem_alloc` splits only unused blocks
whose successor is in use, so the invariant survives every call order. -/
theorem hal_mem_no_adjacent_free (base S : Nat) (ops : List MemOp) :
    noAdjFree (runOps (hal_mem_init base S) ops).blocks = true :=
  runOps_noAdj _ ops rfl

/-- C3: for a live allocator and a positive request, `hal_mem_alloc` rounds
the request up to the least 64-byte multiple, fails (returning the `NULL`
sentinel and an untouched context) when no unused block is large enough, and
otherwise marks the first smallest sufficient unused block used — splitting
off a free remainder immediately after it exactly when the block exceeds the
rounded request by more than one block header plus the alignment quantum —
and returns that block's base address. -/
theorem hal_mem_alloc_best_fit_spec (ctx : HalMemContext) (size : Nat)
    (hpos : 0 < size) :
    (size ≤ align_size size ∧ 64 ∣ align_size size ∧
      ∀ m, size ≤ m → 64 ∣ m → align_size size ≤ m) ∧
    ((∀ c ∈ ctx.blocks, c.used = false → c.size < align_size size) →
      hal_mem_alloc ctx size = (none, ctx)) ∧
    (∀ pre b post, ctx.blocks = pre ++ b :: post →
      b.used = false → align_size size ≤ b.size →
      (∀ c ∈ pre, c.used = false → align_size size ≤ c.size → b.size < c.size) →
      (∀ c ∈ post, c.used = false → align_size size ≤ c.size → b.size ≤ c.size) →
      hal_mem_alloc ctx size =
        (some b.addr, { ctx with blocks :=
          pre ++ (if align_size size + memBlockHeaderSize + HAL_MEM_ALIGN < b.size then
            { addr := b.addr, size := align_size size, used := true } ::
              { addr := b.addr + align_size size, size := b.size - align_size size,
                used := false } :: post
          else { b with used := true } :: post) })) := by
  refine ⟨⟨align_size_ge size, align_size_dvd size,
    fun m hm hd => align_size_min size m hm hd⟩, ?_, ?_⟩
  · intro h
    exact hal_mem_alloc_none ctx size h
  · intro pre b post hblocks hbu hbsz hpre hpost
    have hbf : bestFitAux (align_size size) ctx.blocks 0 none =
        some (pre.length, b.size) := by
      rw [hblocks]
      have := bestFitAux_main (align_size size) b post hpost hbu hbsz pre 0 none
        (Or.inl rfl) hpre
      simpa using this
    have hj : ctx.blocks[pre.length]? = some b := by
      rw [hblocks]
      exact getElem?_append_cons pre b post
    have hA : allocAt (align_size size) ctx.blocks pre.length =
        pre ++ (if align_size size + memBlockHeaderSize + HAL_MEM_ALIGN < b.size then
          { addr := b.addr, size := align_size size, used := true } ::
            { addr := b.addr + align_size size, size := b.size - align_size size,
              used := false } :: post
        else { b with used := true } :: post) := by
      rw [hblocks, allocAt_append]
    rw [hal_mem_alloc_eq ctx size (Nat.pos_iff_ne_zero.mp hpos) _ _ hbf b hj, hA]

/-- C3 witness: allocating 100 bytes (rounded to 128) from a context holding
a used 64-byte block and a free 384-byte block splits the free block. -/
theorem hal_mem_alloc_best_fit_spec_witness :
    hal_mem_alloc ⟨0, 448, [⟨0, 64, true⟩, ⟨64, 384, false⟩]⟩ 100 =
      (some 64, ⟨0, 448, [⟨0, 64, true⟩, ⟨64, 128, true⟩, ⟨192, 256, false⟩]⟩) := by
  have h := (hal_mem_alloc_best_fit_spec
      ⟨0, 448, [⟨0, 64, true⟩, ⟨64, 384, false⟩]⟩ 100 (by decide)).2.2
    [⟨0, 64, true⟩] ⟨64, 384, false⟩ [] rfl (by decide) (by decide)
    (by decide) (by decide)
  exact h.trans (by decide)

/-- C7: with a 64-byte aligned window base, every address returned by
`hal_mem_alloc` after any operation sequence is 64-byte aligned and the
rounded-up allocated span lies inside the window. -/
theorem hal_mem_alloc_aligned_in_window (base S : Nat) (hb : 64 ∣ base)
    (ops : List MemOp) (s addr : Nat)
    (h : (hal_mem_alloc (runOps (hal_mem_init base S) ops) s).1 = some addr) :
    64 ∣ addr ∧ base ≤ addr ∧ addr + align_size s ≤ base + S := by
  have hinv := runOps_CtxInvWeak (hal_mem_init base S) ops
    ⟨⟨rfl, trivial⟩, by simp [hal_mem_init, sumSizes]⟩
  have halign := runOps_aligned (hal_mem_init base S) ops (by
    intro x hx
    have : x = { addr := base, size := S, used := false } := by
      simpa [hal_mem_init] using hx
    rw [this]
    exact hb)
  have hfields := runOps_fields (hal_mem_init base S) ops
  obtain ⟨b, hbmem, hu, hsz, rfl, h0⟩ :=
    hal_mem_alloc_some (runOps (hal_mem_init base S) ops) s addr h
  refine ⟨halign b hbmem, ?_, ?_⟩
  · have hle := chain_le _ _ hinv.1 b hbmem
    rw [hfields.1] at hle
    exact hle
  · have hbd := chain_bounds _ _ hinv.1 b hbmem
    rw [hfields.1, hinv.2, hfields.2] at hbd
    have hSd : (hal_mem_init base S).total_size = S := rfl
    have hBd : (hal_mem_init base S).base_addr = base := rfl
    rw [hSd, hBd] at hbd
    show b.addr + align_size s ≤ base + S
    omega

/-- C7 witness: allocating 100 bytes right after initialization over a window
based at 64 returns the aligned in-window address 64. -/
theorem hal_mem_alloc_aligned_in_window_witness :
    64 ∣ 64 ∧ 64 ≤ 64 ∧ 64 + align_size 100 ≤ 64 + 256 :=
  hal_mem_alloc_aligned_in_window 64 256 ⟨1, rfl⟩ [] 100 64 (by decide)

/-- The `test_hal_mem.c` fragmentation scenario: five 256-byte allocations on
a fresh 256 MiB window (returning 0, 256, 512, 768, 1024), then freeing the
second and fourth returned pointers. -/
def fragStateAfterFrees : HalMemContext :=
  runOps (hal_mem_init 0 HAL_ACCEL_MEM_SIZE)
    [MemOp.alloc 256, MemOp.alloc 256, MemOp.alloc 256, MemOp.alloc 256,
     MemOp.alloc 256, MemOp.free 256, MemOp.free 768]

/-- C9 counterexample: in the fragmentation scenario the 512-byte allocation
does succeed, but its address (1280) lies in neither freed span, and the two
freed 256-byte blocks are still present, separate and uncoalesced — the
claimed "coalesced space" does not exist because the freed blocks were never
adjacent. -/
theorem frag_alloc_not_from_coalesced_space :
    (hal_mem_alloc fragStateAfterFrees 512).1 = some 1280 ∧
    fragStateAfterFrees.blocks =
      [⟨0, 256, true⟩, ⟨256, 256, false⟩, ⟨512, 256, true⟩,
       ⟨768, 256, false⟩, ⟨1024, 256, true⟩, ⟨1280, 268434176, false⟩] ∧
    ¬(256 ≤ 1280 ∧ 1280 + 512 ≤ 256 + 512) ∧
    ¬(768 ≤ 1280 ∧ 1280 + 512 ≤ 768 + 512) := by
  exact ⟨by decide, by decide, by decide, by decide⟩

/-- C9 amended: the 512-byte allocation succeeds, but from the untouched
trailing free block at offset 1280; the five 256-byte allocations return
offsets 0..1024, and freeing offsets 256 and 768 coalesces nothing (the
block count is unchanged and both holes remain 256 bytes). -/
theorem frag_alloc_succeeds_from_tail_block :
    ((hal_mem_alloc (runOps (hal_mem_init 0 HAL_ACCEL_MEM_SIZE)
        [MemOp.alloc 256]) 256).1 = some 256) ∧
    ((hal_mem_alloc (runOps (hal_mem_init 0 HAL_ACCEL_MEM_SIZE)
        [MemOp.alloc 256, MemOp.alloc 256, MemOp.alloc 256]) 256).1 = some 768) ∧
    (hal_mem_alloc fragStateAfterFrees 512).1 = some 1280 ∧
    (MemBlock.mk 256 256 false) ∈ fragStateAfterFrees.blocks ∧
    (MemBlock.mk 768 256 false) ∈ fragStateAfterFrees.blocks ∧
    fragStateAfterFrees.blocks.length =
      (runOps (hal_mem_init 0 HAL_ACCEL_MEM_SIZE)
        [MemOp.alloc 256, MemOp.alloc 256, MemOp.alloc 256, MemOp.alloc 256,
         MemOp.alloc 256]).blocks.length := by
  decide

/-! ## Status bits and polling (hal_base.h, hal_io.c)

The hardware updates `ctx->status` concurrently with the host's polling, so
the status field is modelled as the sequence of values the polling loop
observes: `status i` is the word read at the i-th poll. -/

def HAL_STATUS_READY : Nat := 0x1

def HAL_STATUS_BUSY : Nat := 0x2

def HAL_STATUS_COMPLETE : Nat := 0x4

def HAL_STATUS_ERROR : Nat := 0x8

/-- The bit test of `hal_is_ready` applied to one sampled status word. -/
def hal_is_ready (status_word : Nat) : Bool :=
  decide ((status_word &&& HAL_STATUS_READY) ≠ 0)

/-- `hal_lsu_config_t` from `hal_config.h` (`{0}`-, i.e. zero-, defaulted as
in the C packers). -/
structure hal_lsu_config where
  opcode : Nat := 0
  src_addr : Nat := 0
  dst_addr : Nat := 0
  length : Nat := 0
  control : Nat := 0
  status : Nat := 0
deriving Repr, DecidableEq

/-- `hal_systolic_config_t` from `hal_config.h`. -/
structure hal_systolic_config where
  opcode : Nat := 0
  in_height : Nat := 0
  in_width : Nat := 0
  in_channels : Nat := 0
  out_height : Nat := 0
  out_width : Nat := 0
  out_channels : Nat := 0
  stride : Nat := 0
  control : Nat := 0
  status : Nat := 0
deriving Repr, DecidableEq

/-- `hal_img2col_config_t` from `hal_config.h`. -/
structure hal_img2col_config where
  opcode : Nat := 0
  in_height : Nat := 0
  in_width : Nat := 0
  in_channels : Nat := 0
  kernel_size : Nat := 0
  stride : Nat := 0
  pad : Nat := 0
  control : Nat := 0
  status : Nat := 0
deriving Repr, DecidableEq

/-- The `ir_data` union of `hal_controller_ir_t`, as the three
`hal_configure_*` packers build it: one active member, remaining union bytes
zero (`zero` is the all-zero payload of `{0}`-initialization). -/
inductive IrData where
  | zero
  | lsu (cfg : hal_lsu_config)
  | systolic_array (cfg : hal_systolic_config)
  | img2col (cfg : hal_img2col_config)
deriving Repr, DecidableEq

/-- `hal_controller_ir_t` from `hal_config.h`. -/
structure hal_controller_ir where
  opcode : Nat := 0
  src_addr : Nat := 0
  dst_addr : Nat := 0
  length : Nat := 0
  control : Nat := 0
  status : Nat := 0
  ir_data : IrData := IrData.zero
deriving Repr, DecidableEq

/-- The slice of `hal_context_t` the polling and configuration claims use:
`status` is the stream of words the externally-updated status field shows at
successive polls, `mapped_memory` the register window contents (`none` when
the window is not mapped, i.e. the pointer is NULL). -/
structure HalContext where
  status : Nat → Nat
  mapped_memory : Option hal_controller_ir

/-- `int retries = 100` in `hal_wait_for_ready`. -/
def waitRetries : Nat := 100

/-- The polling loop of `hal_wait_for_ready`, instrumented with the number of
`hal_is_ready` polls performed (the C separates consecutive polls by a fixed
`usleep(1000)`). -/
def waitLoop (statusAt : Nat → Nat) : Nat → Nat → Bool × Nat
  | 0, polls => (false, polls)
  | r + 1, polls =>
      if hal_is_ready (statusAt polls) then (true, polls + 1)
      else waitLoop statusAt r (polls + 1)

/-- `hal_wait_for_ready`: poll `hal_is_ready` up to `waitRetries` times. -/
def hal_wait_for_ready (ctx : HalContext) : Bool :=
  (waitLoop ctx.status waitRetries 0).1

/-- `hal_get_status` reads the externally-updated status field; `t` is the
poll instant at which the read occurs. -/
def hal_get_status (ctx : HalContext) (t : Nat) : Nat := ctx.status t

/-! ## Register programming (hal_config.c) -/

/-- `write_config`: wait for readiness, then copy the full record into the
mapped register window in one operation; on a failed wait (or an unmapped
window) fail without writing. -/
def write_config (ctx : HalContext) (config : hal_controller_ir) :
    Bool × HalContext :=
  if hal_wait_for_ready ctx = false then (false, ctx)
  else
    match ctx.mapped_memory with
    | none => (false, ctx)
    | some _ => (true, { ctx with mapped_memory := some config })

/-- `hal_configure_lsu`: zero-initialize an instruction record, copy the LSU
payload into the union, and hand it to `write_config`. -/
def hal_configure_lsu (ctx : HalContext) (config : hal_lsu_config) :
    Bool × HalContext :=
  write_config ctx { ir_data := IrData.lsu config }

/-- `hal_configure_systolic`. -/
def hal_configure_systolic (ctx : HalContext) (config : hal_systolic_config) :
    Bool × HalContext :=
  write_config ctx { ir_data := IrData.systolic_array config }

/-- `hal_configure_img2col`. -/
def hal_configure_img2col (ctx : HalContext) (config : hal_img2col_config) :
    Bool × HalContext :=
  write_config ctx { ir_data := IrData.img2col config }

/-! ## Driver facade (accel.c, accel_config.c, accel_types.h) -/

/-- `accel_op_type_t`. -/
inductive accel_op_type where
  | none
  | matmul
  | conv2d
deriving Repr, DecidableEq

/-- `accel_status_t`. -/
inductive accel_status where
  | ok
  | error
  | invalid_param
  | no_memory
  | timeout
  | busy
  | not_inited
deriving Repr, DecidableEq

/-- `accel_buffer_t`. -/
structure accel_buffer where
  host_addr : Nat := 0
  dev_addr : Nat := 0
  size : Nat := 0
deriving Repr, DecidableEq

/-- `accel_op_params_t`. -/
structure accel_op_params where
  op_type : accel_op_type := accel_op_type.none
  input : accel_buffer := {}
  output : accel_buffer := {}
  weights : accel_buffer := {}
  flags : Nat := 0
deriving Repr, DecidableEq

/-- `accel_config_t`. -/
structure accel_config where
  flags : Nat := 0
  num_channels : Nat := 0
  max_transfer : Nat := 0
  timeout_ms : Nat := 0
deriving Repr, DecidableEq

/-- `ACCEL_CONFIG_ENABLE_DMA` (bit 0). -/
def ACCEL_CONFIG_ENABLE_DMA : Nat := 1

/-- `HAL_OP_MATMUL` from `accel.c`. -/
def HAL_OP_MATMUL : Nat := 0x01

/-- `HAL_OP_CONV` from `accel.c`. -/
def HAL_OP_CONV : Nat := 0x02

/-- The driver's global context `g_ctx` (the `last_error` buffer carries no
behavior the claims depend on and is omitted). -/
structure GCtx where
  initialized : Bool
  hal : HalContext
  config : accel_config

/-- One call out of the facade into the HAL layer; facade functions return
the list of HAL calls they made, in order, so "fails before touching any
lower layer" is the statement that this list is empty. -/
inductive HalCall where
  | configureSystolic (cfg : hal_systolic_config)
  | configureLsu (cfg : hal_lsu_config)
  | waitForReady
  | getStatus
deriving Repr, DecidableEq

/-- `convert_hal_status` from `accel.c`. -/
def convert_hal_status (hal_status : Nat) : accel_status :=
  if (hal_status &&& HAL_STATUS_ERROR) ≠ 0 then accel_status.error
  else if (hal_status &&& HAL_STATUS_BUSY) ≠ 0 then accel_status.busy
  else accel_status.ok

/-- `accel_submit_op`: check the session, reject a NULL parameter record,
program the systolic unit with the mapped opcode and the caller's flags, then
program the LSU with the input/output device addresses and the input length.
The result carries the final status, the updated global context and the HAL
calls performed. -/
def accel_submit_op (g : GCtx) (params : Option accel_op_params) :
    accel_status × GCtx × List HalCall :=
  if g.initialized = false then (accel_status.not_inited, g, [])
  else
    match params with
    | Option.none => (accel_status.invalid_param, g, [])
    | Option.some p =>
      match p.op_type with
      | accel_op_type.matmul =>
        let systolic_cfg : hal_systolic_config :=
          { opcode := HAL_OP_MATMUL, control := p.flags }
        match hal_configure_systolic g.hal systolic_cfg with
        | (false, hal') =>
          (accel_status.error, { g with hal := hal' },
            [HalCall.configureSystolic systolic_cfg])
        | (true, hal') =>
          let lsu_cfg : hal_lsu_config :=
            { src_addr := p.input.dev_addr, dst_addr := p.output.dev_addr,
              length := p.input.size }
          match hal_configure_lsu hal' lsu_cfg with
          | (false, hal'') =>
            (accel_status.error, { g with hal := hal'' },
              [HalCall.configureSystolic systolic_cfg, HalCall.configureLsu lsu_cfg])
          | (true, hal'') =>
            (accel_status.ok, { g with hal := hal'' },
              [HalCall.configureSystolic systolic_cfg, HalCall.configureLsu lsu_cfg])
      | accel_op_type.conv2d =>
        let systolic_cfg : hal_systolic_config :=
          { opcode := HAL_OP_CONV, control := p.flags }
        match hal_configure_systolic g.hal systolic_cfg with
        | (false, hal') =>
          (accel_status.error, { g with hal := hal' },
            [HalCall.configureSystolic systolic_cfg])
        | (true, hal') =>
          let lsu_cfg : hal_lsu_config :=
            { src_addr := p.input.dev_addr, dst_addr := p.output.dev_addr,
              length := p.input.size }
          match hal_configure_lsu hal' lsu_cfg with
          | (false, hal'') =>
            (accel_status.error, { g with hal := hal'' },
              [HalCall.configureSystolic systolic_cfg, HalCall.configureLsu lsu_cfg])
          | (true, hal'') =>
            (accel_status.ok, { g with hal := hal'' },
              [HalCall.configureSystolic systolic_cfg, HalCall.configureLsu lsu_cfg])
      | accel_op_type.none => (accel_status.invalid_param, g, [])

set_option linter.unusedVariables false in
/-- `accel_wait_complete`: the `timeout_ms` argument is accepted but never
read by the C body, which delegates to the fixed-budget `hal_wait_for_ready`
and then converts the current hardware status.  The status read on the
success path happens at the poll instant at which the wait returned. -/
def accel_wait_complete (g : GCtx) (timeout_ms : Nat) :
    accel_status × List HalCall :=
  if g.initialized = false then (accel_status.not_inited, [])
  else if hal_wait_for_ready g.hal = false then
    (accel_status.timeout, [HalCall.waitForReady])
  else
    (convert_hal_status
        (hal_get_status g.hal (waitLoop g.hal.status waitRetries 0).2),
      [HalCall.waitForReady, HalCall.getStatus])

/-- `accel_configure` from `accel_config.c` (a NULL `config` is `none`). -/
def accel_configure (g : GCtx) (config : Option accel_config) :
    accel_status × GCtx × List HalCall :=
  if g.initialized = false then (accel_status.not_inited, g, [])
  else
    match config with
    | Option.none => (accel_status.invalid_param, g, [])
    | Option.some c => (accel_status.ok, { g with config := c }, [])

/-- `accel_get_config`: the second component is what is written through the
out-parameter (`none` when nothing is written; `outNull` models a NULL
out-pointer). -/
def accel_get_config (g : GCtx) (outNull : Bool) :
    accel_status × Option accel_config × List HalCall :=
  if g.initialized = false then (accel_status.not_inited, Option.none, [])
  else if outNull then (accel_status.invalid_param, Option.none, [])
  else (accel_status.ok, Option.some g.config, [])

/-- `accel_reset_config`: restore the fixed defaults. -/
def accel_reset_config (g : GCtx) : accel_status × GCtx × List HalCall :=
  if g.initialized = false then (accel_status.not_inited, g, [])
  else
    (accel_status.ok,
      { g with config :=
        { flags := ACCEL_CONFIG_ENABLE_DMA, num_channels := 1,
          max_transfer := 0x1000000, timeout_ms := 1000 } },
      [])

/-! ## Runtime wrapper (runtime.hpp) -/

/-- The parameter record `Runtime::MatrixMultiply` builds: op type MATMUL,
the three buffers, zero flags. -/
def matrixMultiplyParams (input weights output : accel_buffer) :
    accel_op_params :=
  { op_type := accel_op_type.matmul, input := input, weights := weights,
    output := output }

/-- The parameter record `Runtime::Convolution2D` builds. -/
def convolution2DParams (input weights output : accel_buffer) :
    accel_op_params :=
  { op_type := accel_op_type.conv2d, input := input, weights := weights,
    output := output }

/-- The timeout `Runtime::SubmitAndWait` passes to `accel_wait_complete`
(`accel_wait_complete(0);  // Wait indefinitely`). -/
def runtimeWaitTimeoutMs : Nat := 0

/-! ## Facts about the polling wait -/

theorem waitLoop_bound (statusAt : Nat → Nat) (r p : Nat) :
    (waitLoop statusAt r p).2 ≤ p + r := by
  induction r generalizing p with
  | zero => simp [waitLoop]
  | succ r ih =>
    simp only [waitLoop]
    by_cases h : hal_is_ready (statusAt p) = true
    · rw [if_pos h]
      show p + 1 ≤ p + (r + 1)
      omega
    · rw [if_neg h]
      have := ih (p + 1)
      omega

theorem waitLoop_never (statusAt : Nat → Nat)
    (h : ∀ i, hal_is_ready (statusAt i) = false) (r p : Nat) :
    waitLoop statusAt r p = (false, p + r) := by
  induction r generalizing p with
  | zero => rfl
  | succ r ih =>
    simp only [waitLoop]
    rw [if_neg (by rw [h p]; exact Bool.false_ne_true)]
    rw [ih (p + 1)]
    congr 1
    omega

theorem waitLoop_first (statusAt : Nat → Nat) (r p i : Nat)
    (hpi : p ≤ i) (hir : i < p + r) (hready : hal_is_ready (statusAt i) = true)
    (hmin : ∀ j, p ≤ j → j < i → hal_is_ready (statusAt j) = false) :
    waitLoop statusAt r p = (true, i + 1) := by
  induction r generalizing p with
  | zero => omega
  | succ r ih =>
    simp only [waitLoop]
    by_cases hp : hal_is_ready (statusAt p) = true
    · have hip : i = p := by
        by_contra hne
        have hlt : p < i := by omega
        have := hmin p (Nat.le_refl p) hlt
        rw [this] at hp
        exact absurd hp (by simp)
      rw [if_pos hp, hip]
    · rw [if_neg hp]
      have hpi' : p + 1 ≤ i := by
        rcases Nat.lt_or_ge p i with hlt | hge
        · omega
        · have : i = p := by omega
          rw [this] at hready
          exact absurd hready hp
      exact ih (p + 1) hpi' (by omega) (fun j hj1 hj2 => hmin j (by omega) hj2)

/-- C6: `hal_wait_for_ready` performs at most `waitRetries` polls; on a
context whose status never shows the READY bit it returns `false` after
exactly the full retry budget; and if some poll within the budget is the
first to observe READY, it returns `true` at that poll.  (The loop is a
structurally terminating function, so it terminates on every input.) -/
theorem hal_wait_for_ready_bounded (ctx : HalContext) :
    (waitLoop ctx.status waitRetries 0).2 ≤ waitRetries ∧
    ((∀ i, hal_is_ready (ctx.status i) = false) →
      hal_wait_for_ready ctx = false ∧
        waitLoop ctx.status waitRetries 0 = (false, waitRetries)) ∧
    (∀ i, i < waitRetries → hal_is_ready (ctx.status i) = true →
      (∀ j, j < i → hal_is_ready (ctx.status j) = false) →
      hal_wait_for_ready ctx = true ∧
        waitLoop ctx.status waitRetries 0 = (true, i + 1)) := by
  refine ⟨by simpa using waitLoop_bound ctx.status waitRetries 0, ?_, ?_⟩
  · intro h
    have := waitLoop_never ctx.status h waitRetries 0
    constructor
    · show (waitLoop ctx.status waitRetries 0).1 = false
      rw [this]
    · simpa using this
  · intro i hi hready hmin
    have := waitLoop_first ctx.status waitRetries 0 i (Nat.zero_le i)
      (by omega) hready (fun j _ hj => hmin j hj)
    constructor
    · show (waitLoop ctx.status waitRetries 0).1 = true
      rw [this]
    · exact this

/-- C6 witness: a never-ready status stream exhausts all 100 retries and
fails; a stream first ready at poll 3 succeeds at poll 3 (4 polls). -/
theorem hal_wait_for_ready_bounded_witness :
    (hal_wait_for_ready ⟨fun _ => 0, Option.none⟩ = false ∧
      waitLoop (fun _ => 0) waitRetries 0 = (false, waitRetries)) ∧
    (hal_wait_for_ready ⟨fun i => if i = 3 then 1 else 0, Option.none⟩ = true ∧
      waitLoop (fun i => if i = 3 then 1 else 0) waitRetries 0 = (true, 4)) :=
  ⟨(hal_wait_for_ready_bounded ⟨fun _ => 0, Option.none⟩).2.1
    (fun i => by simp [hal_is_ready, HAL_STATUS_READY]),
   (hal_wait_for_ready_bounded ⟨fun i => if i = 3 then 1 else 0, Option.none⟩).2.2
     3 (by decide) (by decide) (by decide)⟩

/-- C4: when `hal_wait_for_ready` times out, each of the three configuration
entry points returns failure with the context — in particular the mapped
register window — completely unchanged: the instruction register is never
partially programmed on the failure path. -/
theorem hal_configure_no_write_on_timeout (ctx : HalContext)
    (h : hal_wait_for_ready ctx = false)
    (lsu : hal_lsu_config) (sys : hal_systolic_config)
    (img : hal_img2col_config) :
    hal_configure_lsu ctx lsu = (false, ctx) ∧
    hal_configure_systolic ctx sys = (false, ctx) ∧
    hal_configure_img2col ctx img = (false, ctx) := by
  unfold hal_configure_lsu hal_configure_systolic hal_configure_img2col
    write_config
  rw [h]
  simp

/-- C4 witness: a mapped context that never reports READY rejects all three
configuration calls and keeps its register window. -/
theorem hal_configure_no_write_on_timeout_witness :
    hal_configure_lsu ⟨fun _ => 0, Option.some {}⟩ {} =
      (false, ⟨fun _ => 0, Option.some {}⟩) ∧
    hal_configure_systolic ⟨fun _ => 0, Option.some {}⟩ {} =
      (false, ⟨fun _ => 0, Option.some {}⟩) ∧
    hal_configure_img2col ⟨fun _ => 0, Option.some {}⟩ {} =
      (false, ⟨fun _ => 0, Option.some {}⟩) :=
  hal_configure_no_write_on_timeout ⟨fun _ => 0, Option.some {}⟩ (by decide)
    {} {} {}

/-- C5 (code evaluated at the failing input): on an initialized session whose
hardware status never shows READY, `accel_wait_complete` called with the
Runtime wrapper's "wait indefinitely" timeout 0 returns TIMEOUT after the
fixed 100-poll budget instead of blocking until ready — and does exactly the
same for any other `timeout_ms`, since the argument is never read. -/
theorem accel_wait_complete_ignores_infinite_timeout :
    accel_wait_complete
        { initialized := true, hal := ⟨fun _ => 0, Option.some {}⟩, config := {} }
        runtimeWaitTimeoutMs = (accel_status.timeout, [HalCall.waitForReady]) ∧
    accel_wait_complete
        { initialized := true, hal := ⟨fun _ => 0, Option.some {}⟩, config := {} }
        999999 = (accel_status.timeout, [HalCall.waitForReady]) := by
  constructor <;> rfl

/-- C8: every status-returning facade entry point that needs a live session
returns NOT_INITIALIZED before `accel_init`, making no HAL call at all, and
after initialization `accel_submit_op` with a NULL parameter record returns
INVALID_PARAM before any register-programming call. -/
theorem facade_checks_session_and_params (g g' : GCtx)
    (hg : g.initialized = false) (hg' : g'.initialized = true)
    (p : Option accel_op_params) (t : Nat) (c : Option accel_config)
    (outNull : Bool) :
    accel_submit_op g p = (accel_status.not_inited, g, []) ∧
    accel_wait_complete g t = (accel_status.not_inited, []) ∧
    accel_configure g c = (accel_status.not_inited, g, []) ∧
    accel_get_config g outNull = (accel_status.not_inited, Option.none, []) ∧
    accel_reset_config g = (accel_status.not_inited, g, []) ∧
    accel_submit_op g' Option.none = (accel_status.invalid_param, g', []) := by
  unfold accel_submit_op accel_wait_complete accel_configure accel_get_config
    accel_reset_config
  rw [hg, hg']
  simp

/-- C8 witness at concrete uninitialized and initialized sessions. -/
theorem facade_checks_session_and_params_witness :
    accel_submit_op
        { initialized := false, hal := ⟨fun _ => 0, Option.none⟩, config := {} }
        Option.none =
      (accel_status.not_inited,
        { initialized := false, hal := ⟨fun _ => 0, Option.none⟩, config := {} },
        []) ∧
    accel_wait_complete
        { initialized := false, hal := ⟨fun _ => 0, Option.none⟩, config := {} }
        0 = (accel_status.not_inited, []) ∧
    accel_configure
        { initialized := false, hal := ⟨fun _ => 0, Option.none⟩, config := {} }
        Option.none =
      (accel_status.not_inited,
        { initialized := false, hal := ⟨fun _ => 0, Option.none⟩, config := {} },
        []) ∧
    accel_get_config
        { initialized := false, hal := ⟨fun _ => 0, Option.none⟩, config := {} }
        false = (accel_status.not_inited, Option.none, []) ∧
    accel_reset_config
        { initialized := false, hal := ⟨fun _ => 0, Option.none⟩, config := {} } =
      (accel_status.not_inited,
        { initialized := false, hal := ⟨fun _ => 0, Option.none⟩, config := {} },
        []) ∧
    accel_submit_op
        { initialized := true, hal := ⟨fun _ => 0, Option.none⟩, config := {} }
        Option.none =
      (accel_status.invalid_param,
        { initialized := true, hal := ⟨fun _ => 0, Option.none⟩, config := {} },
        []) :=
  facade_checks_session_and_params
    { initialized := false, hal := ⟨fun _ => 0, Option.none⟩, config := {} }
    { initialized := true, hal := ⟨fun _ => 0, Option.none⟩, config := {} }
    rfl rfl Option.none 0 Option.none false

/-- C10: `accel_submit_op` never reads the weights buffer: two parameter
records agreeing on op type, flags, input and output — with arbitrary
weights — produce identical status, identical final context and identical
register-programming calls; yet the Runtime wrapper does place the caller's
weights buffer in every MatrixMultiply/Convolution2D parameter record. -/
theorem submit_op_ignores_weights (g : GCtx) (p1 p2 : accel_op_params)
    (hop : p1.op_type = p2.op_type) (hfl : p1.flags = p2.flags)
    (hin : p1.input = p2.input) (hout : p1.output = p2.output) :
    accel_submit_op g (Option.some p1) = accel_submit_op g (Option.some p2) ∧
    (∀ i w o, (matrixMultiplyParams i w o).weights = w ∧
      (convolution2DParams i w o).weights = w) := by
  constructor
  · obtain ⟨t1, i1, o1, w1, f1⟩ := p1
    obtain ⟨t2, i2, o2, w2, f2⟩ := p2
    simp only at hop hfl hin hout
    subst hop hfl hin hout
    cases t1 <;> rfl
  · intro i w o
    exact ⟨rfl, rfl⟩

/-- C10 witness: two matmul submissions differing only in the weights buffer
evaluate to the same result on a concrete session. -/
theorem submit_op_ignores_weights_witness :
    accel_submit_op
        { initialized := true, hal := ⟨fun _ => 1, Option.some {}⟩, config := {} }
        (Option.some
          { op_type := accel_op_type.matmul,
            input := { host_addr := 10, dev_addr := 4096, size := 64 },
            output := { host_addr := 20, dev_addr := 8192, size := 64 },
            weights := { host_addr := 30, dev_addr := 12288, size := 64 },
            flags := 7 }) =
      accel_submit_op
        { initialized := true, hal := ⟨fun _ => 1, Option.some {}⟩, config := {} }
        (Option.some
          { op_type := accel_op_type.matmul,
            input := { host_addr := 10, dev_addr := 4096, size := 64 },
            output := { host_addr := 20, dev_addr := 8192, size := 64 },
            weights := {},
            flags := 7 }) ∧
    (∀ i w o, (matrixMultiplyParams i w o).weights = w ∧
      (convolution2DParams i w o).weights = w) :=
  submit_op_ignores_weights
    { initialized := true, hal := ⟨fun _ => 1, Option.some {}⟩, config := {} }
    { op_type := accel_op_type.matmul,
      input := { host_addr := 10, dev_addr := 4096, size := 64 },
      output := { host_addr := 20, dev_addr := 8192, size := 64 },
      weights := { host_addr := 30, dev_addr := 12288, size := 64 },
      flags := 7 }
    { op_type := accel_op_type.matmul,
      input := { host_addr := 10, dev_addr := 4096, size := 64 },
      output := { host_addr := 20, dev_addr := 8192, size := 64 },
      weights := {},
      flags := 7 }
    rfl rfl rfl rfl

end DNNAccel
